import Mathlib

/-!
# Verification of the ranomengine multi-strategy extraction pipeline

Shallow embedding of the core algorithms of the repository:

* `GoalMapper._clean_text` and `GoalMapper.extract_from_html`
  (src/mappers/goal_mapper.py),
* `StudioMapper._clean_extracted_value` (src/mappingstudio/services/mapper.py),
* `ResultComparator._compare_fields` / `_calculate_field_similarity`
  (src/mappingstudio/services/comparator.py), including the standard-library
  `difflib.SequenceMatcher.ratio` they call,
* `AISuggester._suggest_field_selectors` / `_dedupe_and_rank_suggestions`
  (src/mappingstudio/services/ai_suggester.py),
* `GenericParser._extract_price` (src/parsers/generic_parser.py),
* the AI-fallback merge in `parse_with_mapping` (src/api.py).

Modelling conventions:

* Python floats are modelled as rationals (`ℚ`); all constants involved
  (0.5, 0.7, 0.8, 0.9, small integer quotients) are exactly representable
  as doubles, so the comparisons the claims are about agree.
* Python strings are modelled as `String` / `List Char`; the whitespace and
  digit classes of `re` are modelled by their ASCII parts.
* DOM access (BeautifulSoup / lxml / parsel selector evaluation) is an
  external collaborator and is abstracted as a resolver function; everything
  downstream of it (cleaning, counting, scoring, merging, comparing) is
  translated literally from the source.
-/

/-- A scalar extracted value: Python `str` or `int` as produced and consumed
by the claims' code paths. -/
inductive Value where
  | str (s : String)
  | int (n : Int)
deriving DecidableEq, Repr

/-- ASCII part of Python's `\s` / `str.strip` whitespace class. -/
def isSpaceChar (c : Char) : Bool :=
  c = ' ' || c = '\t' || c = '\n' || c = '\r' || c = '\x0b' || c = '\x0c'

/-- Single-pass scanner implementing `re.sub(r'<[^>]+>', '', text)`.  The
state `none` is ordinary scanning; `some buf` means a `<` has been read and
`buf` holds (reversed) the non-`>` characters read since.  On a `>` with a
nonempty run the whole `<run>` match is dropped; on an immediate `>` there
was no match (the quantifier is one-or-more), and at end of input with no
closing `>` the pending characters are emitted unchanged — in both cases no
character of the pending text can start a later match, exactly as in the
regex engine's left-to-right scan. -/
def stripTagsAux : Option (List Char) → List Char → List Char
  | none, [] => []
  | none, c :: rest =>
    if c = '<' then stripTagsAux (some []) rest else c :: stripTagsAux none rest
  | some buf, [] => '<' :: buf.reverse
  | some buf, c :: rest =>
    if c = '>' then
      if buf.isEmpty then '<' :: '>' :: stripTagsAux none rest
      else stripTagsAux none rest
    else stripTagsAux (some (c :: buf)) rest

/-- `re.sub(r'<[^>]+>', '', text)`: remove every non-overlapping leftmost
match of `<`, one-or-more non-`>` characters, `>`. -/
def stripTags (l : List Char) : List Char := stripTagsAux none l

/-- Single-pass scanner implementing `re.sub(r'\s+', ' ', text)`; the flag
records whether the previous character was inside a whitespace run. -/
def collapseRunsAux : Bool → List Char → List Char
  | _, [] => []
  | inRun, c :: rest =>
    if isSpaceChar c then
      if inRun then collapseRunsAux true rest
      else ' ' :: collapseRunsAux true rest
    else c :: collapseRunsAux false rest

/-- `re.sub(r'\s+', ' ', text)`: each maximal whitespace run becomes a single
space. -/
def collapseRuns (l : List Char) : List Char := collapseRunsAux false l

/-- `str.strip()` on the left. -/
def trimLeft (l : List Char) : List Char := l.dropWhile isSpaceChar

/-- `str.strip()` on the right. -/
def trimRight (l : List Char) : List Char := (l.reverse.dropWhile isSpaceChar).reverse

/-- `re.sub(r'\s+', ' ', text).strip()`. -/
def collapseWS (l : List Char) : List Char := trimRight (trimLeft (collapseRuns l))

/-- Python substring test `pat in s` on character lists. -/
def hasSubstr (pat : List Char) : List Char → Bool
  | [] => pat.isEmpty
  | c :: rest => pat.isPrefixOf (c :: rest) || hasSubstr pat rest

/-- Value of a run of ASCII digits, as `int()` parses it. -/
def digitsToNat (l : List Char) : Nat :=
  l.foldl (fun n c => n * 10 + (c.toNat - '0'.toNat)) 0

/-- Group 1 of `re.search(r'\$?([\d,]+)', s)` on comma-free text `s`: the
first maximal digit run (the optional `$` does not affect the group). -/
def firstDigitRun : List Char → Option Nat
  | [] => none
  | c :: rest =>
    if c.isDigit then
      some (digitsToNat (c :: rest.takeWhile Char.isDigit))
    else
      firstDigitRun rest

/-- `GoalMapper._clean_text` (src/mappers/goal_mapper.py:314-335): strip
markup tags, collapse whitespace, and, when the cleaned text contains `$` or
the substring `price` (case-insensitively), parse the first digit run of the
comma-free text as an integer price; otherwise return the cleaned string.
The function takes no field name.  `cleanTextCore` is the part after the
generic cleanup, applied to the cleaned character list. -/
def cleanTextCore (t : List Char) : Value :=
  if t.contains '$' || hasSubstr "price".data (t.map Char.toLower) then
    match firstDigitRun (t.filter (· ≠ ',')) with
    | some n => Value.int n
    | none => Value.str (String.mk t)
  else Value.str (String.mk t)

/-- `GoalMapper._clean_text`: empty input stays the empty string; otherwise
generic cleanup followed by `cleanTextCore`. -/
def cleanText (x : String) : Value :=
  if x = "" then Value.str ""
  else cleanTextCore (collapseWS (stripTags x.data))

/-- Group 0 of `re.search(r'(19|20)\d{2}', s)`: the first position where
`19` or `20` is followed by two digits, read as a 4-digit number. -/
def firstYearRun : List Char → Option Nat
  | [] => none
  | [_] => none
  | c1 :: c2 :: rest =>
    if ((c1 = '1' && c2 = '9') || (c1 = '2' && c2 = '0')) then
      match rest with
      | c3 :: c4 :: _ =>
        if c3.isDigit && c4.isDigit then
          some (digitsToNat [c1, c2, c3, c4])
        else firstYearRun (c2 :: rest)
      | _ => firstYearRun (c2 :: rest)
    else firstYearRun (c2 :: rest)

/-- `StudioMapper._clean_extracted_value` (src/mappingstudio/services/mapper.py:
296-337): `None` for a falsy input, then generic tag-stripping and whitespace
cleanup, then type-specific parsing keyed on the field name: `price` and
`mileage` parse the first digit run of the comma-free cleaned text, `year`
parses a `(19|20)\d{2}` run; any parse failure falls back to the cleaned
string. -/
def cleanExtractedValue (value : String) (fieldName : String) : Option Value :=
  if value = "" then none
  else
    let g := collapseWS (stripTags value.data)
    if fieldName = "price" then
      match firstDigitRun (g.filter (· ≠ ',')) with
      | some n => some (Value.int n)
      | none => some (Value.str (String.mk g))
    else if fieldName = "mileage" then
      match firstDigitRun (g.filter (· ≠ ',')) with
      | some n => some (Value.int n)
      | none => some (Value.str (String.mk g))
    else if fieldName = "year" then
      match firstYearRun g with
      | some n => some (Value.int n)
      | none => some (Value.str (String.mk g))
    else some (Value.str (String.mk g))

/-- Re-normalization of an already extracted value.  `_clean_text` is
string-typed (its `re.sub` raises `TypeError` on an `int`), so only string
values can re-enter it; an integer value, the output of a completed numeric
parse, is already in normal form. -/
def normalizeValue : Value → Value
  | Value.str s => cleanText s
  | Value.int n => Value.int n

/-! ## Idempotence infrastructure for the generic cleanup

`hasTag l` says `l` contains a substring matching `<[^>]+>`; `noTwoSpaces`
says no two adjacent characters are both whitespace.  The cleaned text
produced by `stripTags` / `collapseWS` satisfies these and is a fixed point
of both passes, which is what the idempotence claim needs. -/

/-- There is a match of `[^>]+>` starting at the head position. -/
def tagFrom : List Char → Bool
  | [] => false
  | c :: rest => (c != '>') && rest.contains '>'

/-- Some position starts a match of `<[^>]+>`. -/
def hasTag : List Char → Bool
  | [] => false
  | c :: rest => ((c == '<') && tagFrom rest) || hasTag rest

/-- No two adjacent whitespace characters. -/
def noTwoSpaces : List Char → Bool
  | [] => true
  | [_] => true
  | a :: b :: rest => (!(isSpaceChar a && isSpaceChar b)) && noTwoSpaces (b :: rest)

/-- The four well-formedness facts satisfied by every output of `collapseWS`:
all whitespace is `' '`, no two adjacent spaces, no leading space, no
trailing space. -/
def wsNormal (t : List Char) : Prop :=
  (∀ c ∈ t, isSpaceChar c = true → c = ' ') ∧
  noTwoSpaces t = true ∧
  (∀ c u, t = c :: u → isSpaceChar c = false) ∧
  (∀ c u, t.reverse = c :: u → isSpaceChar c = false)

/-- A mapping rule as loaded from a site schema JSON: a string (static
literal or selector, told apart by its leading character), a dict (handled
by the `_extract_complex_rule` placeholder, which returns `None`), or any
other JSON value (its `.startswith` call raises inside `_extract_field_value`
whose `except` returns `None`). -/
inductive Rule where
  | str (s : String)
  | dict
  | other

/-- Python `s.startswith(pre)`. -/
def startsWithStr (pre s : String) : Bool := pre.data.isPrefixOf s.data

/-- `rule.startswith(('/', '.', '#', '[', '//'))` from
`GoalMapper._extract_field_value`. -/
def isSelectorString (s : String) : Bool :=
  startsWithStr "/" s || startsWithStr "." s || startsWithStr "#" s ||
    startsWithStr "[" s || startsWithStr "//" s

/-- `GoalMapper._extract_field_value`: a non-selector string is returned as a
static literal; a selector string is resolved against the parsed document by
the three engines (lxml XPath, parsel CSS, BeautifulSoup) — that external DOM
query, cleaning included, is abstracted as `resolve`, which yields `none`
when every engine fails; dict rules and non-string rules yield `None`. -/
def extractFieldValue (resolve : String → Option Value) : Rule → Option Value
  | Rule.str s => if isSelectorString s then resolve s else some (Value.str s)
  | Rule.dict => none
  | Rule.other => none

/-- A JSON-like extracted value: a scalar or a nested object, as stored in
`extracted_data`. -/
inductive JVal where
  | prim (v : Value)
  | obj (entries : List (String × JVal))

/-- Python dict assignment `d[k] = v`: replace in place, else append. -/
def dictInsert : List (String × JVal) → String → JVal → List (String × JVal)
  | [], k, v => [(k, v)]
  | (k', v') :: rest, k, v =>
    if k' = k then (k, v) :: rest else (k', v') :: dictInsert rest k v

/-- Python `key.split('.')` (splitting on a single-character separator). -/
def splitCharAux (sep : Char) : List Char → List Char → List (List Char)
  | [], acc => [acc.reverse]
  | c :: rest, acc =>
    if c = sep then acc.reverse :: splitCharAux sep rest []
    else splitCharAux sep rest (c :: acc)

def splitDots (s : String) : List String :=
  (splitCharAux '.' s.data []).map String.mk

/-- `GoalMapper._set_nested_value`: navigate the dotted path creating
intermediate dicts, then assign the final segment.  Hitting an existing
non-dict value on the way raises a `TypeError` in the source (`in` on an
`int`, or item assignment on a scalar), which the caller catches — modelled
as `none`; because every fresh intermediate dict is created after the whole
existing prefix has been navigated, a failing call leaves the data
unchanged. -/
def setNestedValue (v : Value) : List (String × JVal) → List String →
    Option (List (String × JVal))
  | _, [] => none
  | d, [k] => some (dictInsert d k (JVal.prim v))
  | d, k :: k2 :: rest =>
    match List.lookup k d with
    | some (JVal.prim _) => none
    | some (JVal.obj sub) =>
      (setNestedValue v sub (k2 :: rest)).map fun sub2 =>
        dictInsert d k (JVal.obj sub2)
    | none =>
      (setNestedValue v [] (k2 :: rest)).map fun sub2 =>
        dictInsert d k (JVal.obj sub2)

/-- The dataclass `MappingResult` of src/mappers/goal_mapper.py. -/
structure MappingResult where
  success : Bool
  extractedData : List (String × JVal)
  mappingUsed : String
  fieldsMapped : Nat
  fieldsTotal : Nat
  confidence : ℚ
  errors : List String
  fallbackNeeded : Bool

/-- One iteration of the field loop of `extract_from_html`: a `None` value is
skipped silently (no error is recorded); a resolved value is assigned through
`_set_nested_value` and counted, and an exception from the assignment is
caught, recorded in the error list, and leaves the count unchanged. -/
def extractStep (resolve : String → Option Value)
    (st : List (String × JVal) × List String × Nat) (fr : String × Rule) :
    List (String × JVal) × List String × Nat :=
  match extractFieldValue resolve fr.2 with
  | none => st
  | some v =>
    match setNestedValue v st.1 (splitDots fr.1) with
    | some d2 => (d2, st.2.1, st.2.2 + 1)
    | none => (st.1, st.2.1 ++ ["Failed to extract " ++ fr.1], st.2.2)

/-- `GoalMapper.extract_from_html` (src/mappers/goal_mapper.py:139-216), on
the path where the site schema exists and the document parses: iterate over
the schema fields, then `confidence = fields_mapped / fields_total` (0 for an
empty schema), `fallback_needed = confidence < 0.7 or fields_mapped < 3`,
`success = fields_mapped > 0`. -/
def extractFromHtml (siteId : String) (mapping : List (String × Rule))
    (resolve : String → Option Value) : MappingResult :=
  let st := mapping.foldl (extractStep resolve) ([], [], 0)
  let fieldsTotal := mapping.length
  let conf : ℚ := if fieldsTotal > 0 then (st.2.2 : ℚ) / (fieldsTotal : ℚ) else 0
  { success := decide (0 < st.2.2)
    extractedData := st.1
    mappingUsed := siteId
    fieldsMapped := st.2.2
    fieldsTotal := fieldsTotal
    confidence := conf
    errors := st.2.1
    fallbackNeeded := decide (conf < 7/10) || decide (st.2.2 < 3) }

/-- The `extracted_data` / `confidence` part of an `AIGoalExtractor` result,
an external collaborator of `parse_with_mapping`. -/
structure AiExtractionResult where
  success : Bool
  extractedData : List (String × JVal)
  confidence : ℚ

/-- Python `{**mapping_data, **ai_data}`: the mapping keys in order, each
overridden by the AI value when the AI produced that key, followed by the AI
keys the mapping did not have. -/
def mergeDicts (m ai : List (String × JVal)) : List (String × JVal) :=
  (m.map fun p =>
    match List.lookup p.1 ai with
    | some v => (p.1, v)
    | none => p) ++
  ai.filter fun p => (List.lookup p.1 m).isNone

/-- The AI-fallback block of `parse_with_mapping` (src/api.py:613-626):
when the request asks for AI fallback and the mapping result needs it, the
AI extractor runs; on success the merged data is `{**mapping, **ai}` and the
final confidence is the max of the two; otherwise the mapping result stands.
Returns (final extracted data, final confidence, ai_fallback_used). -/
def applyAiFallback (mr : MappingResult) (fallbackAi : Bool)
    (ai : AiExtractionResult) : List (String × JVal) × ℚ × Bool :=
  if fallbackAi && mr.fallbackNeeded then
    if ai.success then
      (mergeDicts mr.extractedData ai.extractedData,
        max mr.confidence ai.confidence, true)
    else (mr.extractedData, mr.confidence, false)
  else (mr.extractedData, mr.confidence, false)

/-- A 10-field schema of CSS-selector rules, 7 of which resolve. -/
def tenFieldMapping : List (String × Rule) :=
  [("f1", Rule.str ".a1"), ("f2", Rule.str ".a2"), ("f3", Rule.str ".a3"),
   ("f4", Rule.str ".a4"), ("f5", Rule.str ".a5"), ("f6", Rule.str ".a6"),
   ("f7", Rule.str ".a7"), ("f8", Rule.str ".a8"), ("f9", Rule.str ".a9"),
   ("f10", Rule.str ".a10")]

def sevenOfTenResolve : String → Option Value := fun s =>
  if s = ".a8" || s = ".a9" || s = ".a10" then none else some (Value.str "v")

/-- Python `float(s)` on the decimal grammar
`[sign] (digits [. digits] | . digits) [e [sign] digits]` — the forms the
comparator's values can take.  (The builtin also accepts surrounding
whitespace, digit-group underscores and `inf`/`nan` spellings; the inputs
here are already stripped and lowercased scalar renderings, for which this
subset is exact.)  Numbers are modelled as rationals. -/
def parseFloatChars (l : List Char) : Option ℚ :=
  let sgnSplit : ℚ × List Char :=
    match l with
    | '-' :: t => (-1, t)
    | '+' :: t => (1, t)
    | _ => (1, l)
  let sgn := sgnSplit.1
  let l1 := sgnSplit.2
  let ip := l1.takeWhile Char.isDigit
  let l2 := l1.dropWhile Char.isDigit
  let expPart : ℚ → List Char → Option ℚ := fun v r =>
    match r with
    | [] => some v
    | 'e' :: t =>
      let esgnSplit : Bool × List Char :=
        match t with
        | '-' :: t2 => (true, t2)
        | '+' :: t2 => (false, t2)
        | _ => (false, t)
      let ed := esgnSplit.2.takeWhile Char.isDigit
      let t3 := esgnSplit.2.dropWhile Char.isDigit
      if ed.isEmpty || !t3.isEmpty then none
      else if esgnSplit.1 then some (v / 10 ^ digitsToNat ed)
      else some (v * 10 ^ digitsToNat ed)
    | _ => none
  match l2 with
  | '.' :: t =>
    let fp := t.takeWhile Char.isDigit
    let l3 := t.dropWhile Char.isDigit
    if ip.isEmpty && fp.isEmpty then none
    else expPart (sgn * (digitsToNat ip + (digitsToNat fp : ℚ) / 10 ^ fp.length)) l3
  | _ =>
    if ip.isEmpty then none
    else expPart (sgn * digitsToNat ip) l2

/-- Python `str(value)` for the scalar values at hand. -/
def pyStr : Value → String
  | Value.str s => s
  | Value.int n => toString n

/-- `str(value).strip().lower()` — the comparator's normalization. -/
def normalizedStr (v : Value) : String :=
  String.mk ((trimRight (trimLeft (pyStr v).data)).map Char.toLower)

/-- `ResultComparator._is_numeric`: `float(value.replace(',','').replace('$',''))`
succeeds. -/
def isNumeric (s : String) : Bool :=
  (parseFloatChars ((s.data.filter (· ≠ ',')).filter (· ≠ '$'))).isSome

/-- `commonLen x y`: length of the longest common prefix — the size of the
block of matching characters starting at a given pair of positions. -/
def commonLen : List Char → List Char → Nat
  | a :: as, b :: bs => if a = b then commonLen as bs + 1 else 0
  | _, _ => 0

/-- `difflib.SequenceMatcher.find_longest_match` with no junk (the autojunk
heuristic only fires for strings of 200+ characters and is not modelled):
the longest block `a[i:i+k] == b[j:j+k]`, ties resolved to the smallest `i`,
then the smallest `j` — computed here by scanning all positions in that
order and keeping the first strictly larger block. -/
def findLongestMatch (a b : List Char) : Nat × Nat × Nat :=
  (List.range (a.length + 1)).foldl
    (fun best i =>
      (List.range (b.length + 1)).foldl
        (fun best2 j =>
          let k := commonLen (a.drop i) (b.drop j)
          if k > best2.2.2 then (i, j, k) else best2)
        best)
    (0, 0, 0)

/-- Total size of `difflib`'s matching blocks: recursively take the longest
match and recurse on the parts left of it and right of it.  The recursion
depth is bounded by the total length, which serves as structural fuel. -/
def matchTotalFuel : Nat → List Char → List Char → Nat
  | 0, _, _ => 0
  | fuel + 1, a, b =>
    let m := findLongestMatch a b
    if m.2.2 = 0 then 0
    else
      matchTotalFuel fuel (a.take m.1) (b.take m.2.1) + m.2.2 +
        matchTotalFuel fuel (a.drop (m.1 + m.2.2)) (b.drop (m.2.1 + m.2.2))

def matchTotal (a b : List Char) : Nat :=
  matchTotalFuel (a.length + b.length) a b

/-- `difflib.SequenceMatcher(None, a, b).ratio()`:
`2 * M / (len(a) + len(b))`, and 1.0 when both strings are empty. -/
def sequenceRatio (a b : List Char) : ℚ :=
  if a.length + b.length = 0 then 1
  else 2 * (matchTotal a b : ℚ) / ((a.length : ℚ) + (b.length : ℚ))

/-- `ResultComparator._calculate_field_similarity`
(src/mappingstudio/services/comparator.py:226-265): both `None` is 1, one
`None` is 0; otherwise normalize to lowercase trimmed strings; equal strings
give 1; if both look numeric try `float(s.replace(',',''))` on each — on
success compare exactly, with 0 when either is zero and they differ and
`max(0, 1 - |a-b|/max(a,b))` otherwise; a failed conversion (for example a
`$` the `_is_numeric` test stripped but the conversion does not) falls
through, like non-numeric text, to the `SequenceMatcher` ratio. -/
def calculateFieldSimilarity : Option Value → Option Value → ℚ
  | none, none => 1
  | none, some _ => 0
  | some _, none => 0
  | some v1, some v2 =>
    let s1 := normalizedStr v1
    let s2 := normalizedStr v2
    if s1 = s2 then 1
    else if isNumeric s1 && isNumeric s2 then
      match parseFloatChars (s1.data.filter (· ≠ ',')),
          parseFloatChars (s2.data.filter (· ≠ ',')) with
      | some n1, some n2 =>
        if n1 = n2 then 1
        else if n1 = 0 ∨ n2 = 0 then 0
        else max 0 (1 - |n1 - n2| / max n1 n2)
      | _, _ => sequenceRatio s1.data s2.data
    else sequenceRatio s1.data s2.data

/-- The dataclass `FieldComparison` (src/mappingstudio/services/comparator.py);
the source field `match` is called `matched` here (`match` is reserved). -/
structure FieldComparison where
  fieldName : String
  mappingValue : Option Value
  aiValue : Option Value
  matched : Bool
  similarity : ℚ
  differenceType : String
  suggestion : Option String
  confidence : Option ℚ

/-- `important_fields.index(name)` with 999 for absent names, unfolded over
the literal list `['vin', 'price', 'year', 'make', 'model', 'mileage']`. -/
def importanceIndex (f : String) : Nat :=
  if f = "vin" then 0
  else if f = "price" then 1
  else if f = "year" then 2
  else if f = "make" then 3
  else if f = "model" then 4
  else if f = "mileage" then 5
  else 999

/-- The comparator's sort key order: ascending `(importance index, name)`. -/
def comparisonOrder (c1 c2 : FieldComparison) : Prop :=
  importanceIndex c1.fieldName < importanceIndex c2.fieldName ∨
    (importanceIndex c1.fieldName = importanceIndex c2.fieldName ∧
      ¬ c2.fieldName < c1.fieldName)

instance : DecidableRel comparisonOrder := fun c1 c2 => by
  unfold comparisonOrder
  infer_instance

def suggestionTextMissing (f : String) (av : Value) : String :=
  "Consider adding mapping for '" ++ f ++ "': " ++ String.mk ((pyStr av).data.take 100)

def suggestionTextExtra (f : String) : String :=
  "Mapping found '" ++ f ++ "' but AI didn't - verify accuracy"

def suggestionTextDiffer (mv av : Value) : String :=
  "Values differ - Mapping: '" ++ String.mk ((pyStr mv).data.take 50) ++
    "' vs AI: '" ++ String.mk ((pyStr av).data.take 50) ++ "'"

/-- The per-field confidence annotation from the studio mapper's per-field
results: 0.8 when the field result succeeded, 0.0 when it failed, absent
when the field has no entry. -/
def confidenceFrom (fieldResults : List (String × Bool)) (f : String) : Option ℚ :=
  (List.lookup f fieldResults).map fun s => if s then 4/5 else 0

/-- The body of the per-field loop of `ResultComparator._compare_fields`
(src/mappingstudio/services/comparator.py:146-224).  `dict.get` returns
`None` both for an absent key and for a key stored with value `None`, hence
the `Option.join`.  Both absent: skip.  Absent in the mapping only:
`missing`, similarity 0.  Absent in the AI result only: `extra`, similarity
0.5.  Both present: similarity from `_calculate_field_similarity` and
`match = similarity >= 0.9`. -/
def compareField (mdata adata : List (String × Option Value))
    (fieldResults : List (String × Bool)) (f : String) : Option FieldComparison :=
  let mv := (List.lookup f mdata).join
  let av := (List.lookup f adata).join
  match mv, av with
  | none, none => none
  | none, some a =>
    some
      { fieldName := f, mappingValue := none, aiValue := some a,
        matched := false, similarity := 0, differenceType := "missing",
        suggestion := some (suggestionTextMissing f a),
        confidence := confidenceFrom fieldResults f }
  | some m, none =>
    some
      { fieldName := f, mappingValue := some m, aiValue := none,
        matched := false, similarity := 1/2, differenceType := "extra",
        suggestion := some (suggestionTextExtra f),
        confidence := confidenceFrom fieldResults f }
  | some m, some a =>
    let sim := calculateFieldSimilarity (some m) (some a)
    let mt : Bool := decide (sim ≥ 9/10)
    some
      { fieldName := f, mappingValue := some m, aiValue := some a,
        matched := mt, similarity := sim,
        differenceType := if mt then "match" else "different",
        suggestion := if mt then none else some (suggestionTextDiffer m a),
        confidence := confidenceFrom fieldResults f }

/-- `set(mapping_data.keys()) | set(ai_data.keys())`: Python set iteration
order is implementation-defined; it is modelled as first-appearance order,
which is immaterial because the final output is sorted by a key that is
injective on these distinct field names. -/
def fieldsUnion (mdata adata : List (String × Option Value)) : List String :=
  (mdata.map Prod.fst ++ adata.map Prod.fst).dedup

/-- `ResultComparator._compare_fields`: one comparison per field present in
either input, sorted by `(importance index, field name)`. -/
def compareFields (mdata adata : List (String × Option Value))
    (fieldResults : List (String × Bool)) : List FieldComparison :=
  List.insertionSort comparisonOrder
    ((fieldsUnion mdata adata).filterMap (compareField mdata adata fieldResults))

/-- The dataclass `SelectorSuggestion`
(src/mappingstudio/services/ai_suggester.py:24-32), restricted to the fields
the dedupe/rank logic reads. -/
structure SelectorSuggestion where
  fieldName : String
  selector : String
  selectorType : String
  confidence : ℚ

/-- `f"{suggestion.selector}:{suggestion.selector_type}"` — the dedup key of
`_dedupe_and_rank_suggestions`. -/
def suggestionKey (s : SelectorSuggestion) : String :=
  s.selector ++ ":" ++ s.selectorType

/-- The dedup loop of `AISuggester._dedupe_and_rank_suggestions`
(src/mappingstudio/services/ai_suggester.py:440-455): walk the list keeping a
suggestion only when its key was not seen before — the FIRST entry with each
key survives. -/
def dedupeByKey : List String → List SelectorSuggestion → List SelectorSuggestion
  | _, [] => []
  | seen, s :: rest =>
    if suggestionKey s ∈ seen then dedupeByKey seen rest
    else s :: dedupeByKey (suggestionKey s :: seen) rest

/-- `unique_suggestions.sort(key=lambda s: s.confidence, reverse=True)` —
descending confidence. -/
def rankDesc (s1 s2 : SelectorSuggestion) : Prop :=
  s2.confidence ≤ s1.confidence

instance : DecidableRel rankDesc := fun s1 s2 =>
  inferInstanceAs (Decidable (s2.confidence ≤ s1.confidence))

instance : IsTotal SelectorSuggestion rankDesc :=
  ⟨fun a b => le_total b.confidence a.confidence⟩

instance : IsTrans SelectorSuggestion rankDesc :=
  ⟨fun _ _ _ h1 h2 => le_trans h2 h1⟩

/-- `AISuggester._dedupe_and_rank_suggestions`: dedupe keeping first, then a
stable sort by descending confidence.  Python's `list.sort` is stable, and a
stable sort's output is determined by the order, so Mathlib's (stable)
insertion sort computes the same list. -/
def dedupeAndRankSuggestions (l : List SelectorSuggestion) : List SelectorSuggestion :=
  List.insertionSort rankDesc (dedupeByKey [] l)

/-- `AISuggester._suggest_field_selectors`
(src/mappingstudio/services/ai_suggester.py:236-263) for one field, taking the
three strategies' suggestion lists as inputs (pattern-based, AI-guided —
empty when there is no AI analysis — and keyword-based, extended in that
order), then dedupe/rank and `[:3]`. -/
def suggestFieldSelectors (pat ai keyword : List SelectorSuggestion) :
    List SelectorSuggestion :=
  (dedupeAndRankSuggestions (pat ++ ai ++ keyword)).take 3

/-- The spec's collision example: a pattern-strategy suggestion for
`#vin-box` at confidence 0.8. -/
def patternSug : SelectorSuggestion := ⟨"vin", "#vin-box", "css", 4/5⟩

/-- The same selector suggested by the AI-guided strategy at confidence 0.9. -/
def aiSug : SelectorSuggestion := ⟨"vin", "#vin-box", "css", 9/10⟩

/-- `int(match.replace(',', ''))` for one regex group of `[\d,]+`
(src/parsers/generic_parser.py:197-204): strip commas and parse the digits;
a group with no digit raises `ValueError` and is skipped (`none`). -/
def parseIntGroup (g : List Char) : Option Nat :=
  let ds := g.filter (· ≠ ',')
  if ds.isEmpty || !ds.all Char.isDigit then none
  else some (digitsToNat ds)

/-- The candidate accumulation of `GenericParser._extract_price`
(src/parsers/generic_parser.py:183-211), taking as input the regex groups
the four price patterns matched (in pattern order): parse each group and
keep the values in the plausible range `1000 <= price <= 200000`. -/
def priceCandidates (groups : List (List Char)) : List Nat :=
  (groups.filterMap parseIntGroup).filter (fun p => 1000 ≤ p && p ≤ 200000)

/-- `max(iterable, key=prices.count)`: scan keeping the earliest value whose
count in `l` is maximal.  The source iterates over `set(prices)`, whose
order is unspecified; iterating the list itself visits the same values (with
repetitions, which cannot change a strict-improvement scan), so every
property proved below — membership, range, maximal count — holds for the
source's value as well. -/
def maxByCount (l : List Nat) (p0 : Nat) : List Nat → Nat
  | [] => p0
  | p :: rest =>
    if l.count p0 < l.count p then maxByCount l p rest else maxByCount l p0 rest

/-- `GenericParser._extract_price`: `None` without candidates, otherwise the
most frequent candidate. -/
def extractPrice (groups : List (List Char)) : Option Nat :=
  match priceCandidates groups with
  | [] => none
  | p0 :: rest => some (maxByCount (p0 :: rest) p0 rest)

theorem dropWhileLenLe (p : α → Bool) (l : List α) : (l.dropWhile p).length ≤ l.length := by
  induction l with
  | nil => simp
  | cons a l ih =>
    by_cases h : p a
    · simp only [List.dropWhile, h]
      exact le_trans ih (by simp)
    · simp [List.dropWhile, h]

theorem dropWhileHeadFalse {p : α → Bool} {l : List α} {c : α} {t : List α}
    (h : l.dropWhile p = c :: t) : p c = false := by
  induction l with
  | nil => simp at h
  | cons a l ih =>
    rw [List.dropWhile_cons] at h
    by_cases hp : p a
    · simp only [hp, if_true] at h
      exact ih h
    · rw [if_neg hp] at h
      cases h
      simpa using hp

theorem dropWhileAllNil {p : α → Bool} {l : List α}
    (h : ∀ c ∈ l, p c = true) : l.dropWhile p = [] := by
  induction l with
  | nil => simp
  | cons a l ih =>
    rw [List.dropWhile_cons]
    simp only [h a (by simp), if_true]
    exact ih fun c hc => h c (by simp [hc])

theorem stripTagsAuxSomeGt {rest tail : List Char} (buf : List Char)
    (h : rest.dropWhile (· != '>') = '>' :: tail) :
    stripTagsAux (some buf) rest =
      if buf.isEmpty && (rest.takeWhile (· != '>')).isEmpty then
        '<' :: '>' :: stripTagsAux none tail
      else stripTagsAux none tail := by
  induction rest generalizing buf with
  | nil => simp at h
  | cons c rest ih =>
    by_cases hc : c = '>'
    · subst hc
      rw [List.dropWhile_cons] at h
      simp only [bne_self_eq_false, if_false] at h
      cases h
      rw [List.takeWhile_cons]
      simp only [bne_self_eq_false, if_false]
      simp only [stripTagsAux, if_pos rfl]
      by_cases hb : buf.isEmpty
      · simp [hb]
      · simp [hb, Bool.and_eq_true]
    · rw [List.dropWhile_cons] at h
      have hcb : (c != '>') = true := by simp [bne_iff_ne, hc]
      simp only [hcb, if_true] at h
      rw [List.takeWhile_cons]
      simp only [hcb, if_true]
      have := ih (c :: buf) h
      simp only [stripTagsAux, if_neg hc]
      rw [this]
      simp [List.isEmpty_cons]

theorem stripTagsAuxSomeNil {rest : List Char} (buf : List Char)
    (h : rest.dropWhile (· != '>') = []) :
    stripTagsAux (some buf) rest = '<' :: (buf.reverse ++ rest) := by
  induction rest generalizing buf with
  | nil => simp [stripTagsAux]
  | cons c rest ih =>
    rw [List.dropWhile_cons] at h
    by_cases hc : c = '>'
    · subst hc
      simp at h
    · have hcb : (c != '>') = true := by simp [bne_iff_ne, hc]
      simp only [hcb, if_true] at h
      simp only [stripTagsAux, if_neg hc]
      rw [ih (c :: buf) h]
      simp

theorem dropWhileNilAll {p : α → Bool} {l : List α}
    (h : l.dropWhile p = []) : ∀ c ∈ l, p c = true := by
  induction l with
  | nil => simp
  | cons a l ih =>
    rw [List.dropWhile_cons] at h
    by_cases hp : p a
    · intro c hc
      rcases List.mem_cons.1 hc with rfl | hc
      · simpa using hp
      · exact ih (by simpa [hp] using h) c hc
    · rw [if_neg hp] at h
      simp at h

theorem stripTagsNil : stripTags [] = [] := rfl

theorem stripTagsConsNe {c : Char} (rest : List Char) (hc : ¬ c = '<') :
    stripTags (c :: rest) = c :: stripTags rest := by
  simp [stripTags, stripTagsAux, hc]

theorem stripTagsConsNoGt {rest : List Char}
    (h : rest.dropWhile (· != '>') = []) :
    stripTags ('<' :: rest) = '<' :: rest := by
  have : stripTags ('<' :: rest) = stripTagsAux (some []) rest := by
    simp [stripTags, stripTagsAux]
  rw [this, stripTagsAuxSomeNil [] h]
  simp

theorem stripTagsConsEmptyRun {rest tail : List Char}
    (h : rest.dropWhile (· != '>') = '>' :: tail)
    (he : (rest.takeWhile (· != '>')).isEmpty = true) :
    stripTags ('<' :: rest) = '<' :: '>' :: stripTags tail := by
  have h0 : stripTags ('<' :: rest) = stripTagsAux (some []) rest := by
    simp [stripTags, stripTagsAux]
  rw [h0, stripTagsAuxSomeGt [] h]
  simp [he, stripTags]

theorem stripTagsConsMatch {rest tail : List Char}
    (h : rest.dropWhile (· != '>') = '>' :: tail)
    (he : (rest.takeWhile (· != '>')).isEmpty = false) :
    stripTags ('<' :: rest) = stripTags tail := by
  have h0 : stripTags ('<' :: rest) = stripTagsAux (some []) rest := by
    simp [stripTags, stripTagsAux]
  rw [h0, stripTagsAuxSomeGt [] h]
  simp [he, stripTags]

theorem containsEqFalseIff {l : List Char} {a : Char} :
    l.contains a = false ↔ a ∉ l := by
  simp [List.contains]

theorem noGtNoTag {l : List Char} (h : l.contains '>' = false) : hasTag l = false := by
  induction l with
  | nil => rfl
  | cons c rest ih =>
    have hmem : '>' ∉ c :: rest := containsEqFalseIff.1 h
    have hrest : ('>' : Char) ∉ rest := fun hm => hmem (by simp [hm])
    have h2 : rest.contains '>' = false := containsEqFalseIff.2 hrest
    have htf : tagFrom rest = false := by
      cases rest with
      | nil => rfl
      | cons d r =>
        have hr : ('>' : Char) ∉ r := fun hm => hrest (by simp [hm])
        have hcf : r.contains '>' = false := containsEqFalseIff.2 hr
        simp only [tagFrom, hcf, Bool.and_false]
    simp [hasTag, htf, ih h2]

theorem tagFromAppend {xs : List Char} (ys : List Char)
    (h : tagFrom xs = true) : tagFrom (xs ++ ys) = true := by
  cases xs with
  | nil => simp [tagFrom] at h
  | cons d r =>
    simp only [tagFrom, Bool.and_eq_true] at h
    simp only [List.cons_append, tagFrom, Bool.and_eq_true, h.1, true_and]
    simp [List.contains] at h ⊢
    exact Or.inl h.2

theorem hasTagAppendRight {xs ys : List Char}
    (h : hasTag (xs ++ ys) = false) : hasTag ys = false := by
  induction xs with
  | nil => exact h
  | cons x xs ih =>
    simp only [List.cons_append, hasTag, List.append_eq, Bool.or_eq_false_iff] at h
    exact ih h.2

theorem hasTagAppendLeft {xs ys : List Char}
    (h : hasTag (xs ++ ys) = false) : hasTag xs = false := by
  induction xs with
  | nil => rfl
  | cons x xs ih =>
    simp only [List.cons_append, hasTag, List.append_eq, Bool.or_eq_false_iff] at h
    simp only [hasTag, Bool.or_eq_false_iff]
    refine ⟨?_, ih h.2⟩
    by_cases hx : (x == '<') = true
    · by_cases ht : tagFrom xs = true
      · have := tagFromAppend ys ht
        rw [hx, this] at h
        simpa using h.1
      · simp [Bool.not_eq_true] at ht
        simp [ht]
    · simp [Bool.not_eq_true] at hx
      simp [hx]

theorem hasTagStripTagsLen :
    ∀ n, ∀ l : List Char, l.length ≤ n → hasTag (stripTags l) = false := by
  intro n
  induction n with
  | zero =>
    intro l hl
    have h0 : l = [] := List.length_eq_zero.1 (Nat.le_zero.1 hl)
    subst h0; rfl
  | succ n ih =>
    intro l hl
    match l with
    | [] => rfl
    | c :: rest =>
      simp only [List.length_cons, Nat.succ_le_succ_iff] at hl
      by_cases hc : c = '<'
      · subst hc
        cases hd : rest.dropWhile (· != '>') with
        | nil =>
          rw [stripTagsConsNoGt hd]
          have hall := dropWhileNilAll hd
          have hnm : ('>' : Char) ∉ rest := by
            intro hm
            have := hall _ hm
            simp at this
          have hcf : rest.contains '>' = false := containsEqFalseIff.2 hnm
          have htagrest : hasTag rest = false := noGtNoTag hcf
          have htf : tagFrom rest = false := by
            cases rest with
            | nil => rfl
            | cons d r =>
              have hr : ('>' : Char) ∉ r := fun hm => hnm (by simp [hm])
              simp only [tagFrom, containsEqFalseIff.2 hr, Bool.and_false]
          simp [hasTag, htf, htagrest]
        | cons c' tail =>
          have hc' : c' = '>' := by
            have := dropWhileHeadFalse hd
            simpa using this
          subst hc'
          have htail : tail.length ≤ n := by
            have h1 : ('>' :: tail).length ≤ rest.length := by
              rw [← hd]; exact dropWhileLenLe _ rest
            simp only [List.length_cons] at h1
            omega
          cases he : (rest.takeWhile (· != '>')).isEmpty with
          | true =>
            rw [stripTagsConsEmptyRun hd he]
            have hS := ih tail htail
            simp [hasTag, tagFrom, hS]
          | false =>
            rw [stripTagsConsMatch hd he]
            exact ih tail htail
      · rw [stripTagsConsNe rest hc]
        have hrest := ih rest hl
        simp [hasTag, hc, hrest]

/-- The output of `stripTags` contains no `<[^>]+>` match. -/
theorem hasTagStripTags (l : List Char) : hasTag (stripTags l) = false :=
  hasTagStripTagsLen l.length l le_rfl

theorem noTagStripTagsLen :
    ∀ n, ∀ l : List Char, l.length ≤ n → hasTag l = false → stripTags l = l := by
  intro n
  induction n with
  | zero =>
    intro l hl _
    have h0 : l = [] := List.length_eq_zero.1 (Nat.le_zero.1 hl)
    subst h0; rfl
  | succ n ih =>
    intro l hl h
    match l with
    | [] => rfl
    | c :: rest =>
      simp only [List.length_cons, Nat.succ_le_succ_iff] at hl
      simp only [hasTag, Bool.or_eq_false_iff] at h
      by_cases hc : c = '<'
      · subst hc
        have htf : tagFrom rest = false := by simpa using h.1
        cases rest with
        | nil => rw [stripTagsConsNoGt (by rfl)]
        | cons d r =>
          by_cases hdg : d = '>'
          · subst hdg
            have hd : (('>' :: r).dropWhile (· != '>')) = '>' :: r := by
              rw [List.dropWhile_cons]
              simp
            have he : (('>' :: r).takeWhile (· != '>')).isEmpty = true := by
              rw [List.takeWhile_cons]
              simp
            rw [stripTagsConsEmptyRun hd he]
            have hr : hasTag r = false := by
              have := h.2
              simp only [hasTag, Bool.or_eq_false_iff] at this
              exact this.2
            have hrlen : r.length ≤ n := by
              simp only [List.length_cons] at hl
              omega
            rw [ih r hrlen hr]
          · have hcontains : r.contains '>' = false := by
              simp only [tagFrom, Bool.and_eq_false_iff] at htf
              rcases htf with h1 | h2
              · exfalso
                simp [bne_iff_ne, hdg] at h1
              · exact h2
            have hall : ∀ x ∈ d :: r, (x != '>') = true := by
              intro x hx
              rcases List.mem_cons.1 hx with rfl | hx
              · simp [bne_iff_ne, hdg]
              · have : x ∉ ([] : List Char) ∨ True := Or.inr trivial
                have hxne : ¬ x = '>' := by
                  intro hxx
                  subst hxx
                  exact absurd hx (containsEqFalseIff.1 hcontains)
                simp [bne_iff_ne, hxne]
            have hd : ((d :: r).dropWhile (· != '>')) = [] := dropWhileAllNil hall
            rw [stripTagsConsNoGt hd]
      · rw [stripTagsConsNe rest hc]
        rw [ih rest hl h.2]

/-- A list with no `<[^>]+>` match is a fixed point of `stripTags`. -/
theorem noTagStripTagsId {l : List Char} (h : hasTag l = false) : stripTags l = l :=
  noTagStripTagsLen l.length l le_rfl h

theorem memCollapseRunsAux {c : Char} :
    ∀ (b : Bool) (l : List Char), c ∈ collapseRunsAux b l → c = ' ' ∨ c ∈ l := by
  intro b l
  induction l generalizing b with
  | nil => simp [collapseRunsAux]
  | cons a rest ih =>
    intro hc
    simp only [collapseRunsAux] at hc
    by_cases hs : isSpaceChar a
    · rw [if_pos hs] at hc
      cases b with
      | true =>
        rw [if_pos rfl] at hc
        rcases ih true hc with h | h
        · exact Or.inl h
        · exact Or.inr (by simp [h])
      | false =>
        rw [if_neg Bool.false_ne_true] at hc
        rcases List.mem_cons.1 hc with rfl | hc
        · exact Or.inl rfl
        · rcases ih true hc with h | h
          · exact Or.inl h
          · exact Or.inr (by simp [h])
    · rw [if_neg hs] at hc
      rcases List.mem_cons.1 hc with rfl | hc
      · exact Or.inr (by simp)
      · rcases ih false hc with h | h
        · exact Or.inl h
        · exact Or.inr (by simp [h])

theorem collapseRunsAuxNoGt {l : List Char} (b : Bool)
    (h : l.contains '>' = false) : (collapseRunsAux b l).contains '>' = false := by
  apply containsEqFalseIff.2
  intro hm
  rcases memCollapseRunsAux b l hm with h1 | h1
  · simp at h1
  · exact containsEqFalseIff.1 h h1

theorem hasTagCollapseRunsAux :
    ∀ (l : List Char) (b : Bool), hasTag l = false → hasTag (collapseRunsAux b l) = false := by
  intro l
  induction l with
  | nil => intro b _; cases b <;> rfl
  | cons a rest ih =>
    intro b h
    simp only [hasTag, Bool.or_eq_false_iff] at h
    simp only [collapseRunsAux]
    by_cases hs : isSpaceChar a
    · rw [if_pos hs]
      have htail := ih true h.2
      cases b with
      | true =>
        rw [if_pos rfl]
        exact htail
      | false =>
        rw [if_neg Bool.false_ne_true]
        simp only [hasTag, Bool.or_eq_false_iff]
        refine ⟨?_, htail⟩
        have : (' ' == '<') = false := by decide
        simp [this]
    · rw [if_neg hs]
      have htail := ih false h.2
      simp only [hasTag, Bool.or_eq_false_iff]
      refine ⟨?_, htail⟩
      by_cases ha : a = '<'
      · subst ha
        -- the source list starts with '<' and has no tag from here
        have htf : tagFrom rest = false := by simpa using h.1
        have : tagFrom (collapseRunsAux false rest) = false := by
          cases rest with
          | nil => simp [collapseRunsAux, tagFrom]
          | cons d r =>
            by_cases hdg : d = '>'
            · subst hdg
              simp only [collapseRunsAux, if_neg (by decide : ¬ isSpaceChar '>' = true)]
              simp [tagFrom]
            · have hcont : r.contains '>' = false := by
                simp only [tagFrom, Bool.and_eq_false_iff] at htf
                rcases htf with h1 | h2
                · exfalso; simp [bne_iff_ne, hdg] at h1
                · exact h2
              have hcontAll : (d :: r).contains '>' = false := by
                apply containsEqFalseIff.2
                intro hm
                rcases List.mem_cons.1 hm with hh | hh
                · exact hdg hh.symm
                · exact containsEqFalseIff.1 hcont hh
              have := collapseRunsAuxNoGt false hcontAll
              cases hr : collapseRunsAux false (d :: r) with
              | nil => simp [tagFrom]
              | cons e s =>
                rw [hr] at this
                have hsno : s.contains '>' = false := by
                  apply containsEqFalseIff.2
                  intro hm
                  have hin : ('>' : Char) ∈ e :: s := by simp [hm]
                  exact containsEqFalseIff.1 this hin
                simp only [tagFrom, hsno, Bool.and_false]
        simp [this]
      · simp [ha]

theorem spacesCollapseRunsAux {c : Char} :
    ∀ (b : Bool) (l : List Char), c ∈ collapseRunsAux b l → isSpaceChar c = true → c = ' ' := by
  intro b l
  induction l generalizing b with
  | nil => simp [collapseRunsAux]
  | cons a rest ih =>
    intro hc hsp
    simp only [collapseRunsAux] at hc
    by_cases hs : isSpaceChar a
    · rw [if_pos hs] at hc
      cases b with
      | true =>
        rw [if_pos rfl] at hc
        exact ih true hc hsp
      | false =>
        rw [if_neg Bool.false_ne_true] at hc
        rcases List.mem_cons.1 hc with rfl | hc
        · rfl
        · exact ih true hc hsp
    · rw [if_neg hs] at hc
      rcases List.mem_cons.1 hc with rfl | hc
      · exact absurd hsp (by simp [hs])
      · exact ih false hc hsp

theorem collapseRunsAuxTrueHead {l : List Char} {c : Char} {t : List Char}
    (h : collapseRunsAux true l = c :: t) : isSpaceChar c = false := by
  induction l generalizing t with
  | nil => simp [collapseRunsAux] at h
  | cons a rest ih =>
    simp only [collapseRunsAux] at h
    by_cases hs : isSpaceChar a
    · rw [if_pos hs, if_pos trivial] at h
      exact ih h
    · rw [if_neg hs] at h
      cases h
      simpa using hs

theorem noTwoSpacesTail {a : Char} {l : List Char}
    (h : noTwoSpaces (a :: l) = true) : noTwoSpaces l = true := by
  cases l with
  | nil => rfl
  | cons b t =>
    simp only [noTwoSpaces, Bool.and_eq_true] at h
    exact h.2

theorem noTwoSpacesCollapseRunsAux :
    ∀ (l : List Char) (b : Bool), noTwoSpaces (collapseRunsAux b l) = true := by
  intro l
  induction l with
  | nil => intro b; rfl
  | cons a rest ih =>
    intro b
    simp only [collapseRunsAux]
    by_cases hs : isSpaceChar a
    · rw [if_pos hs]
      cases b with
      | true =>
        rw [if_pos rfl]
        exact ih true
      | false =>
        rw [if_neg Bool.false_ne_true]
        cases ht : collapseRunsAux true rest with
        | nil => rfl
        | cons c t =>
          have hcsp : isSpaceChar c = false := collapseRunsAuxTrueHead ht
          have := ih true
          rw [ht] at this
          simp [noTwoSpaces, hcsp, this]
    · rw [if_neg hs]
      cases ht : collapseRunsAux false rest with
      | nil => rfl
      | cons c t =>
        have := ih false
        rw [ht] at this
        simp [noTwoSpaces, hs, this]

theorem noTwoSpacesAppendRight {xs ys : List Char}
    (h : noTwoSpaces (xs ++ ys) = true) : noTwoSpaces ys = true := by
  induction xs with
  | nil => exact h
  | cons x xs ih => exact ih (noTwoSpacesTail (by simpa using h))

theorem noTwoSpacesAppendLeft {xs ys : List Char}
    (h : noTwoSpaces (xs ++ ys) = true) : noTwoSpaces xs = true := by
  induction xs with
  | nil => rfl
  | cons x xs ih =>
    cases xs with
    | nil => rfl
    | cons y t =>
      simp only [List.cons_append, noTwoSpaces, Bool.and_eq_true] at h
      have h2 := ih (by simpa using h.2)
      simp [noTwoSpaces, h.1, h2]

theorem collapseRunsAuxIdOfWf :
    ∀ (t : List Char), (∀ c ∈ t, isSpaceChar c = true → c = ' ') →
      noTwoSpaces t = true → collapseRunsAux false t = t := by
  intro t
  induction t with
  | nil => intro _ _; rfl
  | cons c rest ih =>
    intro hsp hnt
    simp only [collapseRunsAux]
    by_cases hs : isSpaceChar c
    · rw [if_pos hs]
      have hc : c = ' ' := hsp c (by simp) hs
      cases rest with
      | nil => simp [collapseRunsAux, hc]
      | cons d r =>
        have hd : isSpaceChar d = false := by
          simp only [noTwoSpaces, Bool.and_eq_true] at hnt
          simpa [hs] using hnt.1
        have heq : collapseRunsAux false (d :: r) = d :: r := by
          apply ih
          · intro x hx hxs
            exact hsp x (by simp [List.mem_cons.1 hx]) hxs
          · exact noTwoSpacesTail hnt
        rw [if_neg Bool.false_ne_true]
        have hstep : collapseRunsAux true (d :: r) = collapseRunsAux false (d :: r) := by
          simp only [collapseRunsAux, if_neg (by simp [hd] : ¬ isSpaceChar d = true)]
        rw [hstep, heq, hc]
    · rw [if_neg hs]
      rw [ih (fun x hx hxs => hsp x (by simp [hx]) hxs) (noTwoSpacesTail hnt)]

theorem dropWhileIdOfHead {p : α → Bool} {l : List α}
    (h : ∀ c t, l = c :: t → p c = false) : l.dropWhile p = l := by
  cases l with
  | nil => rfl
  | cons c t =>
    rw [List.dropWhile_cons, if_neg]
    simp [h c t rfl]

theorem trimLeftDecomp (l : List Char) :
    l = l.takeWhile isSpaceChar ++ trimLeft l :=
  (List.takeWhile_append_dropWhile _ _).symm

theorem trimRightDecomp (l : List Char) :
    l = trimRight l ++ (l.reverse.takeWhile isSpaceChar).reverse := by
  have h1 : l.reverse.takeWhile isSpaceChar ++ l.reverse.dropWhile isSpaceChar
      = l.reverse := List.takeWhile_append_dropWhile _ _
  calc l = l.reverse.reverse := (List.reverse_reverse l).symm
    _ = (l.reverse.takeWhile isSpaceChar ++ l.reverse.dropWhile isSpaceChar).reverse := by
        rw [h1]
    _ = trimRight l ++ (l.reverse.takeWhile isSpaceChar).reverse := by
        rw [List.reverse_append]; rfl

theorem memTrimLeft {c : Char} {l : List Char} (h : c ∈ trimLeft l) : c ∈ l := by
  have h2 : c ∈ l.takeWhile isSpaceChar ++ l.dropWhile isSpaceChar :=
    List.mem_append.2 (Or.inr h)
  rwa [List.takeWhile_append_dropWhile] at h2

theorem memTrimRight {c : Char} {l : List Char} (h : c ∈ trimRight l) : c ∈ l := by
  have h1 : c ∈ l.reverse.dropWhile isSpaceChar := by
    simpa [trimRight] using h
  have h2 : c ∈ l.reverse.takeWhile isSpaceChar ++ l.reverse.dropWhile isSpaceChar :=
    List.mem_append.2 (Or.inr h1)
  rw [List.takeWhile_append_dropWhile] at h2
  simpa using h2

theorem collapseWSWsNormal (l : List Char) : wsNormal (collapseWS l) := by
  refine ⟨?_, ?_, ?_, ?_⟩
  · intro c hc hsp
    have hcv : c ∈ trimLeft (collapseRuns l) := memTrimRight hc
    have hcu : c ∈ collapseRuns l := memTrimLeft hcv
    exact spacesCollapseRunsAux false l hcu hsp
  · have h1 : noTwoSpaces (collapseRuns l) = true := noTwoSpacesCollapseRunsAux l false
    have h2 : noTwoSpaces (trimLeft (collapseRuns l)) = true := by
      have hdec := trimLeftDecomp (collapseRuns l)
      rw [hdec] at h1
      exact noTwoSpacesAppendRight h1
    have h3 := trimRightDecomp (trimLeft (collapseRuns l))
    rw [h3] at h2
    exact noTwoSpacesAppendLeft h2
  · intro c u h
    simp only [collapseWS] at h
    have h3 := trimRightDecomp (trimLeft (collapseRuns l))
    rw [h] at h3
    have h4 : (collapseRuns l).dropWhile isSpaceChar
        = c :: (u ++ ((trimLeft (collapseRuns l)).reverse.takeWhile isSpaceChar).reverse) := by
      simpa using h3
    exact dropWhileHeadFalse h4
  · intro c u h
    simp only [collapseWS, trimRight, List.reverse_reverse] at h
    exact dropWhileHeadFalse h

theorem collapseWSIdOfWf {t : List Char} (h : wsNormal t) : collapseWS t = t := by
  obtain ⟨h1, h2, h3, h4⟩ := h
  have hc : collapseRuns t = t := collapseRunsAuxIdOfWf t h1 h2
  have hl : trimLeft t = t := dropWhileIdOfHead fun c u hcu => h3 c u hcu
  have hr : trimRight t = t := by
    have hrev : t.reverse.dropWhile isSpaceChar = t.reverse :=
      dropWhileIdOfHead fun c u hcu => h4 c u hcu
    simp [trimRight, hrev]
  simp only [collapseWS]
  rw [show collapseRuns t = t from hc, hl, hr]

/-- `collapseWS` is idempotent. -/
theorem collapseWSIdem (l : List Char) : collapseWS (collapseWS l) = collapseWS l :=
  collapseWSIdOfWf (collapseWSWsNormal l)

theorem hasTagCollapseWS {l : List Char} (h : hasTag l = false) :
    hasTag (collapseWS l) = false := by
  have h1 : hasTag (collapseRuns l) = false := hasTagCollapseRunsAux l false h
  have h2 : hasTag (trimLeft (collapseRuns l)) = false := by
    have hdec := trimLeftDecomp (collapseRuns l)
    rw [hdec] at h1
    exact hasTagAppendRight h1
  have h3 := trimRightDecomp (trimLeft (collapseRuns l))
  rw [h3] at h2
  exact hasTagAppendLeft h2

/-- The cleaned text is a fixed point of tag stripping. -/
theorem stripTagsCleanedFix (l : List Char) :
    stripTags (collapseWS (stripTags l)) = collapseWS (stripTags l) :=
  noTagStripTagsId (hasTagCollapseWS (hasTagStripTags l))

theorem cleanTextCoreStr {t : List Char} {s : String}
    (h : cleanTextCore t = Value.str s) : s = String.mk t := by
  simp only [cleanTextCore] at h
  by_cases hb : (t.contains '$' || hasSubstr "price".data (t.map Char.toLower)) = true
  · rw [if_pos hb] at h
    cases hf : firstDigitRun (t.filter (· ≠ ',')) with
    | some n => rw [hf] at h; cases h
    | none => rw [hf] at h; cases h; rfl
  · rw [if_neg hb] at h
    cases h; rfl

theorem cleanTextStringMk {t : List Char}
    (hfix1 : stripTags t = t) (hfix2 : collapseWS t = t)
    (hval : cleanTextCore t = Value.str (String.mk t)) :
    cleanText (String.mk t) = Value.str (String.mk t) := by
  by_cases ht0 : String.mk t = ""
  · have htnil : t = [] := by
      have := congrArg String.data ht0
      simpa using this
    simp only [cleanText, if_pos ht0]
    rw [htnil]
  · simp only [cleanText, if_neg ht0]
    rw [hfix1, hfix2]
    exact hval

/-- C7: value normalization is idempotent: re-normalizing the result of
`GoalMapper._clean_text` returns it unchanged (the function takes no field
name, so this covers every field; an integer result, being the output of a
completed parse, cannot re-enter the string-typed normalizer and is already
normal). -/
theorem c7_normalization_idempotent (x : String) :
    normalizeValue (cleanText x) = cleanText x := by
  by_cases hx : x = ""
  · subst hx; rfl
  · simp only [cleanText, if_neg hx]
    cases hval : cleanTextCore (collapseWS (stripTags x.data)) with
    | int n => rfl
    | str s =>
      have hs := cleanTextCoreStr hval
      subst hs
      show cleanText (String.mk (collapseWS (stripTags x.data)))
          = Value.str (String.mk (collapseWS (stripTags x.data)))
      exact cleanTextStringMk (stripTagsCleanedFix x.data) (collapseWSIdem _) hval

/-- C6 counterexample: `GoalMapper._clean_text`, the normalizer used by the
extraction pipeline of goal_mapper.py, does not parse a mileage value: the
raw text `12,345 miles` comes back as the unchanged cleaned string, not as
the integer 12345 the claim requires for a field named `mileage`. -/
theorem c6_counterexample :
    cleanText "12,345 miles" = Value.str "12,345 miles" ∧
    Value.str "12,345 miles" ≠ Value.int 12345 :=
  ⟨by decide, by decide⟩

/-- C6 amended: the field-name-keyed rules live in
`StudioMapper._clean_extracted_value`: for `price` and `mileage` the first
digit run of the comma-free cleaned text is parsed as an integer, for `year`
a `(19|20)\d\d` run is parsed, and a nonempty field with any other name gets
only the generic tag-stripping and whitespace cleanup. -/
theorem c6_amended (raw f : String) (hraw : ¬ raw = "") :
    (∀ n, firstDigitRun ((collapseWS (stripTags raw.data)).filter (· ≠ ',')) = some n →
        cleanExtractedValue raw "price" = some (Value.int n)) ∧
    (∀ n, firstDigitRun ((collapseWS (stripTags raw.data)).filter (· ≠ ',')) = some n →
        cleanExtractedValue raw "mileage" = some (Value.int n)) ∧
    (∀ n, firstYearRun (collapseWS (stripTags raw.data)) = some n →
        cleanExtractedValue raw "year" = some (Value.int n)) ∧
    (¬ f = "price" → ¬ f = "mileage" → ¬ f = "year" →
        cleanExtractedValue raw f
          = some (Value.str (String.mk (collapseWS (stripTags raw.data))))) := by
  refine ⟨?_, ?_, ?_, ?_⟩
  · intro n hn
    simp only [cleanExtractedValue, if_neg hraw, hn]
    simp
  · intro n hn
    simp only [cleanExtractedValue, if_neg hraw,
      if_neg (by decide : ¬ ("mileage" : String) = "price"), hn]
    simp
  · intro n hn
    simp only [cleanExtractedValue, if_neg hraw,
      if_neg (by decide : ¬ ("year" : String) = "price"),
      if_neg (by decide : ¬ ("year" : String) = "mileage"), hn]
    simp
  · intro h1 h2 h3
    simp only [cleanExtractedValue, if_neg hraw, if_neg h1, if_neg h2, if_neg h3]

/-- C6 amended, witness: concrete evaluations of the three rule families. -/
theorem c6_amended_witness :
    cleanExtractedValue "12,345 miles" "mileage" = some (Value.int 12345) ∧
    cleanExtractedValue "Year: 2019" "year" = some (Value.int 2019) ∧
    cleanExtractedValue "  red  " "color" = some (Value.str "red") := by
  refine ⟨?_, ?_, ?_⟩
  · exact (c6_amended "12,345 miles" "mileage" (by decide)).2.1 12345 (by decide)
  · exact (c6_amended "Year: 2019" "year" (by decide)).2.2.1 2019 (by decide)
  · exact ((c6_amended "  red  " "color" (by decide)).2.2.2
      (by decide) (by decide) (by decide)).trans (by decide)

/-! ## `GoalMapper.extract_from_html` (C1, C10) and the AI-fallback merge (C2) -/

theorem lookupAppendOrElse (k : String) :
    ∀ xs ys : List (String × JVal),
      List.lookup k (xs ++ ys)
        = (List.lookup k xs).orElse fun _ => List.lookup k ys := by
  intro xs ys
  induction xs with
  | nil => simp [List.lookup]
  | cons p rest ih =>
    rcases p with ⟨k0, v0⟩
    by_cases hk : k = k0
    · subst hk
      simp [List.lookup]
    · have hbeq : (k == k0) = false := beq_false_of_ne hk
      simp only [List.cons_append, List.lookup_cons, hbeq]
      exact ih

theorem lookupMapMergePart (ai : List (String × JVal)) (k : String) :
    ∀ m : List (String × JVal),
      List.lookup k (m.map fun p =>
          match List.lookup p.1 ai with
          | some v => (p.1, v)
          | none => p)
        = (List.lookup k m).map fun w =>
            match List.lookup k ai with
            | some v => v
            | none => w := by
  intro m
  induction m with
  | nil => simp
  | cons p rest ih =>
    rcases p with ⟨k0, v0⟩
    by_cases hk : k = k0
    · subst hk
      cases hai : List.lookup k ai with
      | some v => simp [List.lookup, hai]
      | none => simp [List.lookup, hai]
    · have hbeq : (k == k0) = false := beq_false_of_ne hk
      cases hai : List.lookup k0 ai with
      | some v =>
        simp only [List.map_cons, hai, List.lookup_cons, hbeq]
        exact ih
      | none =>
        simp only [List.map_cons, hai, List.lookup_cons, hbeq]
        exact ih

theorem lookupFilterNotIn (m : List (String × JVal)) (k : String) :
    ∀ ai : List (String × JVal),
      List.lookup k (ai.filter fun p => (List.lookup p.1 m).isNone)
        = if (List.lookup k m).isNone then List.lookup k ai else none := by
  intro ai
  induction ai with
  | nil => simp
  | cons p rest ih =>
    rcases p with ⟨k1, w1⟩
    by_cases hk : k = k1
    · subst hk
      cases hm : (List.lookup k m).isNone with
      | true =>
        rw [List.filter_cons]
        simp only [hm, if_true, if_pos rfl]
        simp [List.lookup]
      | false =>
        rw [List.filter_cons]
        simp only [hm]
        rw [if_neg (by simp)]
        rw [ih]
        simp [hm]
    · have hbeq : (k == k1) = false := beq_false_of_ne hk
      cases hm1 : (List.lookup k1 m).isNone with
      | true =>
        simp only [List.filter_cons, hm1, if_true, List.lookup_cons, hbeq]
        exact ih
      | false =>
        simp only [List.filter_cons, hm1, Bool.false_eq_true, if_false,
          List.lookup_cons, hbeq]
        exact ih

/-- Per-key semantics of the Python merge `{**m, **ai}`: the AI value wins on
every collision, the mapping value survives only where the AI has no value. -/
theorem mergeDictsLookup (m ai : List (String × JVal)) (k : String) :
    List.lookup k (mergeDicts m ai)
      = (List.lookup k ai).orElse fun _ => List.lookup k m := by
  rw [mergeDicts, lookupAppendOrElse, lookupMapMergePart, lookupFilterNotIn]
  cases hm : List.lookup k m with
  | some w =>
    cases hai : List.lookup k ai with
    | some v => simp [hm, hai, Option.orElse]
    | none => simp [hm, hai, Option.orElse]
  | none =>
    cases hai : List.lookup k ai with
    | some v => simp [hm, hai, Option.orElse]
    | none => simp [hm, hai, Option.orElse]

/-- C1: for every extraction with a known schema that parses, confidence is
`fieldsMapped / fieldsTotal` (0 for an empty schema), `fallbackNeeded` holds
iff `confidence < 0.70` or `fieldsMapped < 3`, and at confidence exactly 0.70
with at least 3 fields mapped no fallback is triggered. -/
theorem c1_confidence_and_fallback (siteId : String)
    (mapping : List (String × Rule)) (resolve : String → Option Value) :
    ((extractFromHtml siteId mapping resolve).confidence =
      if (extractFromHtml siteId mapping resolve).fieldsTotal = 0 then 0
      else ((extractFromHtml siteId mapping resolve).fieldsMapped : ℚ) /
        ((extractFromHtml siteId mapping resolve).fieldsTotal : ℚ)) ∧
    ((extractFromHtml siteId mapping resolve).fallbackNeeded = true ↔
      ((extractFromHtml siteId mapping resolve).confidence < 7/10 ∨
        (extractFromHtml siteId mapping resolve).fieldsMapped < 3)) ∧
    ((extractFromHtml siteId mapping resolve).confidence = 7/10 →
      3 ≤ (extractFromHtml siteId mapping resolve).fieldsMapped →
      (extractFromHtml siteId mapping resolve).fallbackNeeded = false) := by
  refine ⟨?_, ?_, ?_⟩
  · simp only [extractFromHtml]
    by_cases h0 : mapping.length = 0
    · simp [h0]
    · simp [h0, Nat.pos_of_ne_zero h0]
  · simp only [extractFromHtml, Bool.or_eq_true, decide_eq_true_iff]
  · intro hc hm
    simp only [extractFromHtml] at hc hm ⊢
    rw [hc]
    have h3 : ¬ ((List.foldl (extractStep resolve) ([], [], 0) mapping).2.2 < 3) :=
      Nat.not_lt.2 hm
    simp [h3]

/-- C1 witness: a 10-field schema of which exactly 7 resolve gives
confidence 7/10 and, with at least 3 fields mapped, no fallback. -/
theorem c1_witness :
    (extractFromHtml "site" tenFieldMapping sevenOfTenResolve).fallbackNeeded
      = false := by
  have h := c1_confidence_and_fallback "site" tenFieldMapping sevenOfTenResolve
  apply h.2.2
  · rw [h.1]
    have hm : (extractFromHtml "site" tenFieldMapping sevenOfTenResolve).fieldsMapped
        = 7 := by decide
    have ht : (extractFromHtml "site" tenFieldMapping sevenOfTenResolve).fieldsTotal
        = 10 := by decide
    rw [hm, ht]
    norm_num
  · decide

/-- C10: on the resolution path (schema found, document parsed) the result's
`success` flag is true exactly when at least one field resolved; with zero
resolved fields it is false regardless of the error list. -/
theorem c10_success_iff_mapped (siteId : String)
    (mapping : List (String × Rule)) (resolve : String → Option Value) :
    ((extractFromHtml siteId mapping resolve).success = true ↔
      0 < (extractFromHtml siteId mapping resolve).fieldsMapped) := by
  simp [extractFromHtml]

/-- C2: when the AI fallback runs and succeeds, every key collision is won by
the AI value (a mapping value survives only for keys the AI did not produce)
and the final confidence is the max of the two confidences. -/
theorem c2_ai_merge_precedence (mr : MappingResult) (fallbackAi : Bool)
    (ai : AiExtractionResult) (h1 : fallbackAi = true)
    (h2 : mr.fallbackNeeded = true) (h3 : ai.success = true) :
    (∀ k, List.lookup k (applyAiFallback mr fallbackAi ai).1 =
        (List.lookup k ai.extractedData).orElse
          fun _ => List.lookup k mr.extractedData) ∧
    (applyAiFallback mr fallbackAi ai).2.1 = max mr.confidence ai.confidence ∧
    (applyAiFallback mr fallbackAi ai).2.2 = true := by
  have hcond : (fallbackAi && mr.fallbackNeeded) = true := by rw [h1, h2]; rfl
  refine ⟨?_, ?_, ?_⟩
  · simp only [applyAiFallback, hcond, if_true, h3]
    intro k
    exact mergeDictsLookup mr.extractedData ai.extractedData k
  · simp only [applyAiFallback, hcond, if_true, h3]
  · simp only [applyAiFallback, hcond, if_true, h3]

/-- C2 witness: merging mapping `price=31650` (confidence 0.4, fallback
needed) with successful AI `price=31700` (confidence 0.8) yields
`price=31700` and confidence 0.8. -/
theorem c2_witness :
    List.lookup "price"
      (applyAiFallback
        { success := true, extractedData := [("price", JVal.prim (Value.int 31650))],
          mappingUsed := "site", fieldsMapped := 2, fieldsTotal := 5,
          confidence := 2/5, errors := [], fallbackNeeded := true }
        true
        { success := true, extractedData := [("price", JVal.prim (Value.int 31700))],
          confidence := 4/5 }).1 = some (JVal.prim (Value.int 31700)) ∧
    (applyAiFallback
        { success := true, extractedData := [("price", JVal.prim (Value.int 31650))],
          mappingUsed := "site", fieldsMapped := 2, fieldsTotal := 5,
          confidence := 2/5, errors := [], fallbackNeeded := true }
        true
        { success := true, extractedData := [("price", JVal.prim (Value.int 31700))],
          confidence := 4/5 }).2.1 = max (2/5 : ℚ) (4/5) := by
  have h := c2_ai_merge_precedence
    { success := true, extractedData := [("price", JVal.prim (Value.int 31650))],
      mappingUsed := "site", fieldsMapped := 2, fieldsTotal := 5,
      confidence := 2/5, errors := [], fallbackNeeded := true }
    true
    { success := true, extractedData := [("price", JVal.prim (Value.int 31700))],
      confidence := 4/5 }
    rfl rfl rfl
  refine ⟨?_, h.2.1⟩
  rw [h.1 "price"]
  rfl

/-! ## `ResultComparator` (C3, C4, C8) -/

theorem lookupMemKeys {β : Type} {f : String} {v : β} :
    ∀ {l : List (String × β)}, List.lookup f l = some v → f ∈ l.map Prod.fst := by
  intro l
  induction l with
  | nil => intro h; simp at h
  | cons p rest ih =>
    intro h
    rcases p with ⟨k0, v0⟩
    by_cases hk : f = k0
    · simp [hk]
    · rw [List.lookup_cons, beq_false_of_ne hk] at h
      simp [ih h]

theorem compareFieldsMemIff {mdata adata : List (String × Option Value)}
    {fieldResults : List (String × Bool)} {c : FieldComparison} :
    c ∈ compareFields mdata adata fieldResults ↔
      ∃ f ∈ fieldsUnion mdata adata,
        compareField mdata adata fieldResults f = some c := by
  unfold compareFields
  rw [(List.perm_insertionSort comparisonOrder _).mem_iff]
  simp [List.mem_filterMap]

theorem compareFieldName {mdata adata : List (String × Option Value)}
    {fieldResults : List (String × Bool)} {f : String} {c : FieldComparison}
    (h : compareField mdata adata fieldResults f = some c) : c.fieldName = f := by
  unfold compareField at h
  cases hmv : (List.lookup f mdata).join with
  | none =>
    cases hav : (List.lookup f adata).join with
    | none => rw [hmv, hav] at h; cases h
    | some a => rw [hmv, hav] at h; cases h; rfl
  | some m =>
    cases hav : (List.lookup f adata).join with
    | none => rw [hmv, hav] at h; cases h; rfl
    | some a => rw [hmv, hav] at h; cases h; rfl

/-- C3: per-field behavior of `_compare_fields`: a field absent (or `None`)
on both sides yields no comparison; absent in the mapping only yields
category `missing` with similarity 0; absent in the AI result only yields
category `extra` with similarity 0.5; present on both sides yields the
computed similarity with `match` true exactly when it is at least 0.90. -/
theorem c3_compare_fields (mdata adata : List (String × Option Value))
    (fieldResults : List (String × Bool)) (f : String) :
    ((List.lookup f mdata).join = none → (List.lookup f adata).join = none →
      ∀ c ∈ compareFields mdata adata fieldResults, ¬ c.fieldName = f) ∧
    (∀ a, (List.lookup f mdata).join = none → (List.lookup f adata).join = some a →
      ∃ c ∈ compareFields mdata adata fieldResults, c.fieldName = f ∧
        c.differenceType = "missing" ∧ c.similarity = 0 ∧ c.matched = false) ∧
    (∀ m, (List.lookup f mdata).join = some m → (List.lookup f adata).join = none →
      ∃ c ∈ compareFields mdata adata fieldResults, c.fieldName = f ∧
        c.differenceType = "extra" ∧ c.similarity = 1/2 ∧ c.matched = false) ∧
    (∀ m a, (List.lookup f mdata).join = some m →
      (List.lookup f adata).join = some a →
      ∃ c ∈ compareFields mdata adata fieldResults, c.fieldName = f ∧
        c.similarity = calculateFieldSimilarity (some m) (some a) ∧
        (c.matched = true ↔ 9/10 ≤ c.similarity)) := by
  have hmemOfLookupM : ∀ {v : Option Value}, List.lookup f mdata = some v →
      f ∈ fieldsUnion mdata adata := by
    intro v hv
    simp only [fieldsUnion, List.mem_dedup, List.mem_append]
    exact Or.inl (lookupMemKeys hv)
  have hmemOfLookupA : ∀ {v : Option Value}, List.lookup f adata = some v →
      f ∈ fieldsUnion mdata adata := by
    intro v hv
    simp only [fieldsUnion, List.mem_dedup, List.mem_append]
    exact Or.inr (lookupMemKeys hv)
  refine ⟨?_, ?_, ?_, ?_⟩
  · intro hm ha c hc hcf
    rcases compareFieldsMemIff.1 hc with ⟨g, _, hg⟩
    have : g = f := by rw [← compareFieldName hg, hcf]
    subst this
    unfold compareField at hg
    rw [hm, ha] at hg
    cases hg
  · intro a hm ha
    refine ⟨{ fieldName := f, mappingValue := none, aiValue := some a,
              matched := false, similarity := 0, differenceType := "missing",
              suggestion := some (suggestionTextMissing f a),
              confidence := confidenceFrom fieldResults f }, ?_, rfl, rfl, rfl, rfl⟩
    apply compareFieldsMemIff.2
    exact ⟨f, hmemOfLookupA (Option.join_eq_some.1 ha),
      by simp only [compareField, hm, ha]⟩
  · intro m hm ha
    refine ⟨{ fieldName := f, mappingValue := some m, aiValue := none,
              matched := false, similarity := 1/2, differenceType := "extra",
              suggestion := some (suggestionTextExtra f),
              confidence := confidenceFrom fieldResults f }, ?_, rfl, rfl, rfl, rfl⟩
    apply compareFieldsMemIff.2
    exact ⟨f, hmemOfLookupM (Option.join_eq_some.1 hm),
      by simp only [compareField, hm, ha]⟩
  · intro m a hm ha
    refine ⟨{ fieldName := f, mappingValue := some m, aiValue := some a,
              matched := decide (calculateFieldSimilarity (some m) (some a) ≥ 9/10),
              similarity := calculateFieldSimilarity (some m) (some a),
              differenceType :=
                if decide (calculateFieldSimilarity (some m) (some a) ≥ 9/10)
                then "match" else "different",
              suggestion :=
                if decide (calculateFieldSimilarity (some m) (some a) ≥ 9/10)
                then none else some (suggestionTextDiffer m a),
              confidence := confidenceFrom fieldResults f }, ?_, rfl, rfl, ?_⟩
    · apply compareFieldsMemIff.2
      exact ⟨f, hmemOfLookupM (Option.join_eq_some.1 hm),
        by simp only [compareField, hm, ha]⟩
    · simp [decide_eq_true_iff, ge_iff_le]

/-- C3 witness: the comparator on `A = {color: None, price: 31650}` against
`B = {color: "Red", price: "31,650"}` emits a `missing` row for `color` and
a computed-similarity row for `price`. -/
theorem c3_witness :
    (∃ c ∈ compareFields [("color", none), ("price", some (Value.int 31650))]
        [("color", some (Value.str "Red")), ("price", some (Value.str "31,650"))] [],
      c.fieldName = "color" ∧ c.differenceType = "missing" ∧ c.similarity = 0 ∧
        c.matched = false) ∧
    (∃ c ∈ compareFields [("color", none), ("price", some (Value.int 31650))]
        [("color", some (Value.str "Red")), ("price", some (Value.str "31,650"))] [],
      c.fieldName = "price" ∧
        c.similarity = calculateFieldSimilarity (some (Value.int 31650))
          (some (Value.str "31,650")) ∧
        (c.matched = true ↔ 9/10 ≤ c.similarity)) := by
  constructor
  · exact (c3_compare_fields [("color", none), ("price", some (Value.int 31650))]
      [("color", some (Value.str "Red")), ("price", some (Value.str "31,650"))] []
      "color").2.1 (Value.str "Red") (by decide) (by decide)
  · exact (c3_compare_fields [("color", none), ("price", some (Value.int 31650))]
      [("color", some (Value.str "Red")), ("price", some (Value.str "31,650"))] []
      "price").2.2.2 (Value.int 31650) (Value.str "31,650") (by decide) (by decide)

/-- C4: identical normalized lowercase trimmed strings give similarity
exactly 1; two numeric-looking values that parse to positive unequal numbers
`a`, `b` give `1 - |a-b| / max(a,b)`; and 0 when they differ but either
parses to 0. -/
theorem c4_similarity_formula (v1 v2 : Value) :
    (normalizedStr v1 = normalizedStr v2 →
      calculateFieldSimilarity (some v1) (some v2) = 1) ∧
    (∀ a b : ℚ, isNumeric (normalizedStr v1) = true →
      isNumeric (normalizedStr v2) = true →
      parseFloatChars ((normalizedStr v1).data.filter (· ≠ ',')) = some a →
      parseFloatChars ((normalizedStr v2).data.filter (· ≠ ',')) = some b →
      0 < a → 0 < b → ¬ a = b →
      calculateFieldSimilarity (some v1) (some v2) = 1 - |a - b| / max a b) ∧
    (∀ a b : ℚ, isNumeric (normalizedStr v1) = true →
      isNumeric (normalizedStr v2) = true →
      parseFloatChars ((normalizedStr v1).data.filter (· ≠ ',')) = some a →
      parseFloatChars ((normalizedStr v2).data.filter (· ≠ ',')) = some b →
      (a = 0 ∨ b = 0) → ¬ a = b →
      calculateFieldSimilarity (some v1) (some v2) = 0) := by
  refine ⟨?_, ?_, ?_⟩
  · intro h
    simp only [calculateFieldSimilarity, h]
    simp
  · intro a b hn1 hn2 hp1 hp2 ha hb hab
    have hne : ¬ normalizedStr v1 = normalizedStr v2 := by
      intro he
      rw [he, hp2] at hp1
      exact hab (Option.some.inj hp1).symm
    have hzero : ¬ (a = 0 ∨ b = 0) := by
      rintro (h | h)
      · exact (ne_of_gt ha) h
      · exact (ne_of_gt hb) h
    simp only [calculateFieldSimilarity]
    rw [if_neg hne,
      if_pos (show (isNumeric (normalizedStr v1) && isNumeric (normalizedStr v2))
        = true by rw [hn1, hn2]; rfl)]
    simp only [hp1, hp2]
    rw [if_neg hab, if_neg hzero]
    have hmax : 0 < max a b := lt_max_iff.2 (Or.inl ha)
    have habs : |a - b| ≤ max a b := by
      rw [abs_sub_le_iff]
      constructor
      · have := le_max_left a b
        linarith
      · have := le_max_right a b
        linarith
    have hratio : |a - b| / max a b ≤ 1 := (div_le_one hmax).2 habs
    have hnn : (0 : ℚ) ≤ 1 - |a - b| / max a b := by linarith
    exact max_eq_right hnn
  · intro a b hn1 hn2 hp1 hp2 hz hab
    have hne : ¬ normalizedStr v1 = normalizedStr v2 := by
      intro he
      rw [he, hp2] at hp1
      exact hab (Option.some.inj hp1).symm
    simp only [calculateFieldSimilarity]
    rw [if_neg hne,
      if_pos (show (isNumeric (normalizedStr v1) && isNumeric (normalizedStr v2))
        = true by rw [hn1, hn2]; rfl)]
    simp only [hp1, hp2]
    rw [if_neg hab, if_pos hz]

theorem parseFloat100 : parseFloatChars "100".data = some 100 := by
  simp [parseFloatChars]
  norm_num [digitsToNat]
  have h : '1'.toNat - '0'.toNat = 1 := by decide
  rw [h]
  norm_num

theorem parseFloat200 : parseFloatChars "200".data = some 200 := by
  simp [parseFloatChars]
  norm_num [digitsToNat]
  have h : '2'.toNat - '0'.toNat = 2 := by decide
  rw [h]
  norm_num

/-- C4 witness: identical normalized strings (`" Red "` vs `"red"`) give 1;
`"100"` vs `"200"` parse to 100 and 200 and give `1 - 100/200`. -/
theorem c4_witness :
    calculateFieldSimilarity (some (Value.str " Red ")) (some (Value.str "red")) = 1 ∧
    calculateFieldSimilarity (some (Value.str "100")) (some (Value.str "200"))
      = 1 - |(100 : ℚ) - 200| / max 100 200 := by
  constructor
  · exact (c4_similarity_formula (Value.str " Red ") (Value.str "red")).1 (by decide)
  · exact (c4_similarity_formula (Value.str "100") (Value.str "200")).2.1 100 200
      (by decide) (by decide)
      (by show parseFloatChars ((normalizedStr (Value.str "100")).data.filter (· ≠ ',')) = some 100
          have h : (normalizedStr (Value.str "100")).data.filter (· ≠ ',') = "100".data := by decide
          rw [h]; exact parseFloat100)
      (by show parseFloatChars ((normalizedStr (Value.str "200")).data.filter (· ≠ ',')) = some 200
          have h : (normalizedStr (Value.str "200")).data.filter (· ≠ ',') = "200".data := by decide
          rw [h]; exact parseFloat200)
      (by norm_num) (by norm_num) (by norm_num)

theorem commonLenLeLeft : ∀ x y : List Char, commonLen x y ≤ x.length := by
  intro x
  induction x with
  | nil => intro y; cases y <;> simp [commonLen]
  | cons a as ih =>
    intro y
    cases y with
    | nil => simp [commonLen]
    | cons b bs =>
      simp only [commonLen]
      by_cases hab : a = b
      · rw [if_pos hab]
        simp only [List.length_cons]
        exact Nat.succ_le_succ (ih bs)
      · rw [if_neg hab]
        simp

theorem commonLenLeRight : ∀ x y : List Char, commonLen x y ≤ y.length := by
  intro x
  induction x with
  | nil => intro y; cases y <;> simp [commonLen]
  | cons a as ih =>
    intro y
    cases y with
    | nil => simp [commonLen]
    | cons b bs =>
      simp only [commonLen]
      by_cases hab : a = b
      · rw [if_pos hab]
        simp only [List.length_cons]
        exact Nat.succ_le_succ (ih bs)
      · rw [if_neg hab]
        simp

theorem commonLenRefl : ∀ x : List Char, commonLen x x = x.length := by
  intro x
  induction x with
  | nil => rfl
  | cons a as ih => simp [commonLen, ih]

theorem commonLenTakeEq :
    ∀ (x y : List Char) (k : Nat), k ≤ commonLen x y → x.take k = y.take k := by
  intro x
  induction x with
  | nil =>
    intro y k hk
    cases y with
    | nil => rfl
    | cons b bs =>
      simp [commonLen] at hk
      simp [hk]
  | cons a as ih =>
    intro y k hk
    cases y with
    | nil =>
      simp [commonLen] at hk
      simp [hk]
    | cons b bs =>
      simp only [commonLen] at hk
      by_cases hab : a = b
      · rw [if_pos hab] at hk
        cases k with
        | zero => rfl
        | succ k =>
          simp only [List.take_succ_cons, hab]
          rw [ih bs k (Nat.succ_le_succ_iff.1 hk)]
      · rw [if_neg hab] at hk
        interval_cases k
        rfl

theorem innerFoldPreserve (a b : List Char) (i : Nat) (hi : i ≤ a.length) :
    ∀ (js : List Nat) (best : Nat × Nat × Nat),
      (∀ j ∈ js, j ≤ b.length) →
      (best.1 ≤ a.length ∧ best.2.1 ≤ b.length ∧
        best.2.2 ≤ commonLen (a.drop best.1) (b.drop best.2.1)) →
      ((js.foldl (fun best2 j =>
          let k := commonLen (a.drop i) (b.drop j)
          if k > best2.2.2 then (i, j, k) else best2) best).1 ≤ a.length ∧
       (js.foldl (fun best2 j =>
          let k := commonLen (a.drop i) (b.drop j)
          if k > best2.2.2 then (i, j, k) else best2) best).2.1 ≤ b.length ∧
       (js.foldl (fun best2 j =>
          let k := commonLen (a.drop i) (b.drop j)
          if k > best2.2.2 then (i, j, k) else best2) best).2.2 ≤
         commonLen (a.drop (js.foldl (fun best2 j =>
          let k := commonLen (a.drop i) (b.drop j)
          if k > best2.2.2 then (i, j, k) else best2) best).1)
           (b.drop (js.foldl (fun best2 j =>
          let k := commonLen (a.drop i) (b.drop j)
          if k > best2.2.2 then (i, j, k) else best2) best).2.1)) := by
  intro js
  induction js with
  | nil => intro best _ hb; exact hb
  | cons j js ih =>
    intro best hjs hb
    simp only [List.foldl_cons]
    apply ih
    · intro x hx; exact hjs x (by simp [hx])
    · by_cases hgt : commonLen (a.drop i) (b.drop j) > best.2.2
      · simp only [hgt, if_pos]
        exact ⟨hi, hjs j (by simp), le_refl _⟩
      · simp only [if_neg hgt]
        exact hb

theorem outerFoldPreserve (a b : List Char) :
    ∀ (is : List Nat) (best : Nat × Nat × Nat),
      (∀ i ∈ is, i ≤ a.length) →
      (best.1 ≤ a.length ∧ best.2.1 ≤ b.length ∧
        best.2.2 ≤ commonLen (a.drop best.1) (b.drop best.2.1)) →
      ((is.foldl (fun best i =>
          (List.range (b.length + 1)).foldl (fun best2 j =>
            let k := commonLen (a.drop i) (b.drop j)
            if k > best2.2.2 then (i, j, k) else best2) best) best).1 ≤ a.length ∧
       (is.foldl (fun best i =>
          (List.range (b.length + 1)).foldl (fun best2 j =>
            let k := commonLen (a.drop i) (b.drop j)
            if k > best2.2.2 then (i, j, k) else best2) best) best).2.1 ≤ b.length ∧
       (is.foldl (fun best i =>
          (List.range (b.length + 1)).foldl (fun best2 j =>
            let k := commonLen (a.drop i) (b.drop j)
            if k > best2.2.2 then (i, j, k) else best2) best) best).2.2 ≤
         commonLen
           (a.drop (is.foldl (fun best i =>
            (List.range (b.length + 1)).foldl (fun best2 j =>
              let k := commonLen (a.drop i) (b.drop j)
              if k > best2.2.2 then (i, j, k) else best2) best) best).1)
           (b.drop (is.foldl (fun best i =>
            (List.range (b.length + 1)).foldl (fun best2 j =>
              let k := commonLen (a.drop i) (b.drop j)
              if k > best2.2.2 then (i, j, k) else best2) best) best).2.1)) := by
  intro is
  induction is with
  | nil => intro best _ hb; exact hb
  | cons i is ih =>
    intro best his hb
    simp only [List.foldl_cons]
    apply ih
    · intro x hx; exact his x (by simp [hx])
    · exact innerFoldPreserve a b i (his i (by simp)) _ best
        (fun j hj => by simpa [Nat.lt_succ_iff] using List.mem_range.1 hj) hb

theorem flmBounds (a b : List Char) :
    (findLongestMatch a b).1 ≤ a.length ∧
    (findLongestMatch a b).2.1 ≤ b.length ∧
    (findLongestMatch a b).2.2 ≤
      commonLen (a.drop (findLongestMatch a b).1)
        (b.drop (findLongestMatch a b).2.1) := by
  unfold findLongestMatch
  exact outerFoldPreserve a b _ (0, 0, 0)
    (fun i hi => by simpa [Nat.lt_succ_iff] using List.mem_range.1 hi)
    ⟨Nat.zero_le _, Nat.zero_le _, Nat.zero_le _⟩

theorem innerFoldMono (a b : List Char) (i : Nat) :
    ∀ (js : List Nat) (best : Nat × Nat × Nat),
      best.2.2 ≤ (js.foldl (fun best2 j =>
        let k := commonLen (a.drop i) (b.drop j)
        if k > best2.2.2 then (i, j, k) else best2) best).2.2 := by
  intro js
  induction js with
  | nil => intro best; exact le_refl _
  | cons j js ih =>
    intro best
    simp only [List.foldl_cons]
    by_cases hgt : commonLen (a.drop i) (b.drop j) > best.2.2
    · simp only [hgt, if_pos]
      exact le_trans (le_of_lt hgt)
        (ih (i, j, commonLen (a.drop i) (b.drop j)))
    · simp only [if_neg hgt]
      exact ih best

theorem innerFoldHits (a b : List Char) (i : Nat) :
    ∀ (js : List Nat) (best : Nat × Nat × Nat), ∀ j ∈ js,
      commonLen (a.drop i) (b.drop j) ≤ (js.foldl (fun best2 j =>
        let k := commonLen (a.drop i) (b.drop j)
        if k > best2.2.2 then (i, j, k) else best2) best).2.2 := by
  intro js
  induction js with
  | nil => intro best j hj; simp at hj
  | cons j0 js ih =>
    intro best j hj
    simp only [List.foldl_cons]
    rcases List.mem_cons.1 hj with rfl | hj
    · by_cases hgt : commonLen (a.drop i) (b.drop j) > best.2.2
      · simp only [hgt, if_pos]
        exact innerFoldMono a b i js (i, j, commonLen (a.drop i) (b.drop j))
      · simp only [if_neg hgt]
        exact le_trans (Nat.le_of_not_lt hgt) (innerFoldMono a b i js best)
    · exact ih _ j hj

theorem outerFoldMono (a b : List Char) :
    ∀ (is : List Nat) (best : Nat × Nat × Nat),
      best.2.2 ≤ (is.foldl (fun best i =>
        (List.range (b.length + 1)).foldl (fun best2 j =>
          let k := commonLen (a.drop i) (b.drop j)
          if k > best2.2.2 then (i, j, k) else best2) best) best).2.2 := by
  intro is
  induction is with
  | nil => intro best; exact le_refl _
  | cons i is ih =>
    intro best
    simp only [List.foldl_cons]
    exact le_trans (innerFoldMono a b i _ best) (ih _)

theorem outerFoldHits (a b : List Char) :
    ∀ (is : List Nat) (best : Nat × Nat × Nat), ∀ i ∈ is, ∀ j ≤ b.length,
      commonLen (a.drop i) (b.drop j) ≤ (is.foldl (fun best i =>
        (List.range (b.length + 1)).foldl (fun best2 j =>
          let k := commonLen (a.drop i) (b.drop j)
          if k > best2.2.2 then (i, j, k) else best2) best) best).2.2 := by
  intro is
  induction is with
  | nil => intro best i hi; simp at hi
  | cons i0 is ih =>
    intro best i hi j hj
    simp only [List.foldl_cons]
    rcases List.mem_cons.1 hi with rfl | hi
    · have h1 : commonLen (a.drop i) (b.drop j) ≤
          ((List.range (b.length + 1)).foldl (fun best2 j =>
            let k := commonLen (a.drop i) (b.drop j)
            if k > best2.2.2 then (i, j, k) else best2) best).2.2 :=
        innerFoldHits a b i _ best j (List.mem_range.2 (Nat.lt_succ_of_le hj))
      exact le_trans h1 (outerFoldMono a b is _)
    · exact ih _ i hi j hj

/-- Maximality of `find_longest_match`: no pair of positions carries a longer
common block. -/
theorem flmMax (a b : List Char) :
    ∀ i ≤ a.length, ∀ j ≤ b.length,
      commonLen (a.drop i) (b.drop j) ≤ (findLongestMatch a b).2.2 := by
  intro i hi j hj
  unfold findLongestMatch
  exact outerFoldHits a b _ (0, 0, 0) i
    (List.mem_range.2 (Nat.lt_succ_of_le hi)) j hj

theorem commonLenNilLeft (y : List Char) : commonLen [] y = 0 := by
  cases y <;> rfl

theorem commonLenNilRight (x : List Char) : commonLen x [] = 0 := by
  cases x <;> rfl

theorem flmSumLe (a b : List Char) :
    (findLongestMatch a b).1 + (findLongestMatch a b).2.2 ≤ a.length ∧
    (findLongestMatch a b).2.1 + (findLongestMatch a b).2.2 ≤ b.length := by
  obtain ⟨h1, h2, h3⟩ := flmBounds a b
  have ha : commonLen (a.drop (findLongestMatch a b).1)
      (b.drop (findLongestMatch a b).2.1) ≤ a.length - (findLongestMatch a b).1 := by
    have := commonLenLeLeft (a.drop (findLongestMatch a b).1)
      (b.drop (findLongestMatch a b).2.1)
    simpa using this
  have hb : commonLen (a.drop (findLongestMatch a b).1)
      (b.drop (findLongestMatch a b).2.1) ≤ b.length - (findLongestMatch a b).2.1 := by
    have := commonLenLeRight (a.drop (findLongestMatch a b).1)
      (b.drop (findLongestMatch a b).2.1)
    simpa using this
  omega

theorem mtfNilLeft (fuel : Nat) (b : List Char) :
    matchTotalFuel fuel [] b = 0 := by
  cases fuel with
  | zero => rfl
  | succ f =>
    simp only [matchTotalFuel]
    have hk : (findLongestMatch [] b).2.2 = 0 := by
      have h := (flmBounds [] b).2.2
      rw [List.drop_nil, commonLenNilLeft] at h
      omega
    simp [hk]

theorem mtfLe : ∀ (fuel : Nat) (a b : List Char),
    matchTotalFuel fuel a b ≤ min a.length b.length := by
  intro fuel
  induction fuel with
  | zero => intro a b; simp [matchTotalFuel]
  | succ f ih =>
    intro a b
    simp only [matchTotalFuel]
    by_cases hk : (findLongestMatch a b).2.2 = 0
    · simp [hk]
    · rw [if_neg hk]
      obtain ⟨hsa, hsb⟩ := flmSumLe a b
      obtain ⟨hia, hjb, _⟩ := flmBounds a b
      have h1 := ih (a.take (findLongestMatch a b).1) (b.take (findLongestMatch a b).2.1)
      have h2 := ih (a.drop ((findLongestMatch a b).1 + (findLongestMatch a b).2.2))
        (b.drop ((findLongestMatch a b).2.1 + (findLongestMatch a b).2.2))
      rw [List.length_take, List.length_take] at h1
      rw [List.length_drop, List.length_drop] at h2
      have h1a := le_trans h1 (Nat.min_le_left _ _)
      have h1b := le_trans h1 (Nat.min_le_right _ _)
      have h2a := le_trans h2 (Nat.min_le_left _ _)
      have h2b := le_trans h2 (Nat.min_le_right _ _)
      have h1c := le_trans h1a (Nat.min_le_left _ _)
      refine le_min ?_ ?_ <;> omega

theorem mtfEqOfGe : ∀ (f g : Nat) (a b : List Char),
    a.length + b.length ≤ f → a.length + b.length ≤ g →
    matchTotalFuel f a b = matchTotalFuel g a b := by
  intro f
  induction f with
  | zero =>
    intro g a b hf _
    have ha : a = [] := List.length_eq_zero.1 (by omega)
    subst ha
    rw [mtfNilLeft, mtfNilLeft]
  | succ f ih =>
    intro g a b hf hg
    cases g with
    | zero =>
      have ha : a = [] := List.length_eq_zero.1 (by omega)
      subst ha
      rw [mtfNilLeft, mtfNilLeft]
    | succ g =>
      simp only [matchTotalFuel]
      by_cases hk : (findLongestMatch a b).2.2 = 0
      · simp [hk]
      · rw [if_neg hk, if_neg hk]
        obtain ⟨hsa, hsb⟩ := flmSumLe a b
        obtain ⟨hia, hjb, _⟩ := flmBounds a b
        have hTake : (a.take (findLongestMatch a b).1).length +
            (b.take (findLongestMatch a b).2.1).length ≤ f ∧
            (a.take (findLongestMatch a b).1).length +
            (b.take (findLongestMatch a b).2.1).length ≤ g := by
          rw [List.length_take, List.length_take]
          omega
        have hDrop : (a.drop ((findLongestMatch a b).1 + (findLongestMatch a b).2.2)).length +
            (b.drop ((findLongestMatch a b).2.1 + (findLongestMatch a b).2.2)).length ≤ f ∧
            (a.drop ((findLongestMatch a b).1 + (findLongestMatch a b).2.2)).length +
            (b.drop ((findLongestMatch a b).2.1 + (findLongestMatch a b).2.2)).length ≤ g := by
          rw [List.length_drop, List.length_drop]
          omega
        rw [ih g _ _ hTake.1 hTake.2, ih g _ _ hDrop.1 hDrop.2]

theorem mtfToMatchTotal {f : Nat} {a b : List Char}
    (h : a.length + b.length ≤ f) : matchTotalFuel f a b = matchTotal a b :=
  mtfEqOfGe f (a.length + b.length) a b h le_rfl

theorem matchTotalSelf (a : List Char) : matchTotal a a = a.length := by
  cases ha : a.length with
  | zero =>
    have h0 : a = [] := List.length_eq_zero.1 ha
    subst h0
    rfl
  | succ n =>
    have hmax := flmMax a a 0 (Nat.zero_le _) 0 (Nat.zero_le _)
    rw [List.drop_zero, commonLenRefl] at hmax
    obtain ⟨hsa, _⟩ := flmSumLe a a
    have hk : (findLongestMatch a a).2.2 = a.length := by omega
    have hi : (findLongestMatch a a).1 = 0 := by omega
    have hj : (findLongestMatch a a).2.1 = 0 := by omega
    unfold matchTotal
    rw [show a.length + a.length = (a.length + n) + 1 by omega]
    simp only [matchTotalFuel]
    rw [hk, hi, hj]
    rw [if_neg (by omega : ¬ a.length = 0)]
    simp only [Nat.zero_add, List.drop_length, List.take_zero, mtfNilLeft]
    omega

theorem matchTotalFull :
    ∀ (n : Nat) (a b : List Char), a.length + b.length ≤ n →
      matchTotal a b = a.length → matchTotal a b = b.length → a = b := by
  intro n
  induction n with
  | zero =>
    intro a b hn _ _
    have ha : a = [] := List.length_eq_zero.1 (by omega)
    have hb : b = [] := List.length_eq_zero.1 (by omega)
    rw [ha, hb]
  | succ n ih =>
    intro a b hn h1 h2
    by_cases h0 : a.length + b.length = 0
    · have ha : a = [] := List.length_eq_zero.1 (by omega)
      have hb : b = [] := List.length_eq_zero.1 (by omega)
      rw [ha, hb]
    · obtain ⟨s, hs⟩ : ∃ s, a.length + b.length = s + 1 :=
        ⟨a.length + b.length - 1, by omega⟩
      have hM : matchTotal a b = matchTotalFuel (s + 1) a b := by
        unfold matchTotal; rw [hs]
      rw [hM] at h1 h2
      simp only [matchTotalFuel] at h1 h2
      by_cases hk : (findLongestMatch a b).2.2 = 0
      · rw [if_pos hk] at h1 h2
        omega
      · rw [if_neg hk] at h1 h2
        obtain ⟨hia, hjb, hkc⟩ := flmBounds a b
        obtain ⟨hsa, hsb⟩ := flmSumLe a b
        have hTfuel : (a.take (findLongestMatch a b).1).length +
            (b.take (findLongestMatch a b).2.1).length ≤ s := by
          rw [List.length_take, List.length_take]
          omega
        have hDfuel : (a.drop ((findLongestMatch a b).1 + (findLongestMatch a b).2.2)).length +
            (b.drop ((findLongestMatch a b).2.1 + (findLongestMatch a b).2.2)).length ≤ s := by
          rw [List.length_drop, List.length_drop]
          omega
        rw [mtfToMatchTotal hTfuel, mtfToMatchTotal hDfuel] at h1 h2
        have hMl := mtfLe ((a.take (findLongestMatch a b).1).length +
            (b.take (findLongestMatch a b).2.1).length)
          (a.take (findLongestMatch a b).1) (b.take (findLongestMatch a b).2.1)
        have hMr := mtfLe ((a.drop ((findLongestMatch a b).1 + (findLongestMatch a b).2.2)).length +
            (b.drop ((findLongestMatch a b).2.1 + (findLongestMatch a b).2.2)).length)
          (a.drop ((findLongestMatch a b).1 + (findLongestMatch a b).2.2))
          (b.drop ((findLongestMatch a b).2.1 + (findLongestMatch a b).2.2))
        rw [show ∀ x y : List Char, matchTotalFuel (x.length + y.length) x y
            = matchTotal x y from fun x y => rfl] at hMl hMr
        have hLt1 : (a.take (findLongestMatch a b).1).length
            = (findLongestMatch a b).1 := by
          rw [List.length_take]
          exact Nat.min_eq_left hia
        have hLt2 : (b.take (findLongestMatch a b).2.1).length
            = (findLongestMatch a b).2.1 := by
          rw [List.length_take]
          exact Nat.min_eq_left hjb
        have hLd1 : (a.drop ((findLongestMatch a b).1 + (findLongestMatch a b).2.2)).length
            = a.length - ((findLongestMatch a b).1 + (findLongestMatch a b).2.2) :=
          List.length_drop _ _
        have hLd2 : (b.drop ((findLongestMatch a b).2.1 + (findLongestMatch a b).2.2)).length
            = b.length - ((findLongestMatch a b).2.1 + (findLongestMatch a b).2.2) :=
          List.length_drop _ _
        rw [hLt1, hLt2] at hMl
        rw [hLd1, hLd2] at hMr
        have hMla := le_trans hMl (Nat.min_le_left _ _)
        have hMlb := le_trans hMl (Nat.min_le_right _ _)
        have hMra := le_trans hMr (Nat.min_le_left _ _)
        have hMrb := le_trans hMr (Nat.min_le_right _ _)
        have hMlEqI : matchTotal (a.take (findLongestMatch a b).1)
            (b.take (findLongestMatch a b).2.1) = (findLongestMatch a b).1 := by
          omega
        have hMlEqJ : matchTotal (a.take (findLongestMatch a b).1)
            (b.take (findLongestMatch a b).2.1) = (findLongestMatch a b).2.1 := by
          omega
        have hMrEqA : matchTotal
            (a.drop ((findLongestMatch a b).1 + (findLongestMatch a b).2.2))
            (b.drop ((findLongestMatch a b).2.1 + (findLongestMatch a b).2.2))
            = a.length - ((findLongestMatch a b).1 + (findLongestMatch a b).2.2) := by
          omega
        have hMrEqB : matchTotal
            (a.drop ((findLongestMatch a b).1 + (findLongestMatch a b).2.2))
            (b.drop ((findLongestMatch a b).2.1 + (findLongestMatch a b).2.2))
            = b.length - ((findLongestMatch a b).2.1 + (findLongestMatch a b).2.2) := by
          omega
        have hTakeEq : a.take (findLongestMatch a b).1
            = b.take (findLongestMatch a b).2.1 := by
          apply ih _ _ (by rw [hLt1, hLt2]; omega)
          · rw [hMlEqI, hLt1]
          · rw [hMlEqJ, hLt2]
        have hDropEq : a.drop ((findLongestMatch a b).1 + (findLongestMatch a b).2.2)
            = b.drop ((findLongestMatch a b).2.1 + (findLongestMatch a b).2.2) := by
          apply ih _ _ (by rw [hLd1, hLd2]; omega)
          · rw [hMrEqA, hLd1]
          · rw [hMrEqB, hLd2]
        have hBlockEq : (a.drop (findLongestMatch a b).1).take (findLongestMatch a b).2.2
            = (b.drop (findLongestMatch a b).2.1).take (findLongestMatch a b).2.2 :=
          commonLenTakeEq _ _ _ hkc
        have hDDa : (a.drop (findLongestMatch a b).1).drop (findLongestMatch a b).2.2
            = a.drop ((findLongestMatch a b).1 + (findLongestMatch a b).2.2) := by
          rw [List.drop_drop]
        have hDDb : (b.drop (findLongestMatch a b).2.1).drop (findLongestMatch a b).2.2
            = b.drop ((findLongestMatch a b).2.1 + (findLongestMatch a b).2.2) := by
          rw [List.drop_drop]
        have hA : a = a.take (findLongestMatch a b).1 ++
            ((a.drop (findLongestMatch a b).1).take (findLongestMatch a b).2.2 ++
              a.drop ((findLongestMatch a b).1 + (findLongestMatch a b).2.2)) := by
          rw [← hDDa, List.take_append_drop, List.take_append_drop]
        have hB : b = b.take (findLongestMatch a b).2.1 ++
            ((b.drop (findLongestMatch a b).2.1).take (findLongestMatch a b).2.2 ++
              b.drop ((findLongestMatch a b).2.1 + (findLongestMatch a b).2.2)) := by
          rw [← hDDb, List.take_append_drop, List.take_append_drop]
        rw [hTakeEq, hBlockEq, hDropEq] at hA
        exact hA.trans hB.symm

theorem sequenceRatioOneIff (a b : List Char) :
    sequenceRatio a b = 1 ↔ a = b := by
  constructor
  · intro h
    by_cases h0 : a.length + b.length = 0
    · have ha : a = [] := List.length_eq_zero.1 (by omega)
      have hb : b = [] := List.length_eq_zero.1 (by omega)
      rw [ha, hb]
    · unfold sequenceRatio at h
      rw [if_neg h0] at h
      have hden : ((a.length : ℚ) + (b.length : ℚ)) ≠ 0 := by
        have hcast : ((a.length + b.length : Nat) : ℚ) ≠ 0 := Nat.cast_ne_zero.2 h0
        push_cast at hcast
        exact hcast
      rw [div_eq_one_iff_eq hden] at h
      have hN : 2 * matchTotal a b = a.length + b.length := by
        have hQ : ((2 * matchTotal a b : Nat) : ℚ) = ((a.length + b.length : Nat) : ℚ) := by
          push_cast
          linarith [h]
        exact_mod_cast hQ
      have hLe : matchTotal a b ≤ min a.length b.length := mtfLe (a.length + b.length) a b
      have hmla := le_trans hLe (Nat.min_le_left _ _)
      have hmlb := le_trans hLe (Nat.min_le_right _ _)
      exact matchTotalFull (a.length + b.length) a b le_rfl (by omega) (by omega)
  · intro h
    subst h
    unfold sequenceRatio
    by_cases h0 : a.length + a.length = 0
    · rw [if_pos h0]
    · rw [if_neg h0, matchTotalSelf]
      have hden : ((a.length : ℚ) + (a.length : ℚ)) ≠ 0 := by
        have hne : a.length ≠ 0 := by omega
        have : ((a.length : ℚ)) ≠ 0 := Nat.cast_ne_zero.2 hne
        intro hcontra
        apply this
        linarith [hcontra]
      rw [div_eq_one_iff_eq hden]
      ring

set_option maxRecDepth 4000 in
/-- C8 counterexample: the similarity score is not symmetric on the
`SequenceMatcher` path.  For `"abecd"` vs `"cdabfe"` the first pass picks the
block `ab` and still matches `e` to the right (total 3 of 11), while the
reversed pass picks `cd` first and the remaining `abfe`/`abecd` parts only
yield `ab` (total 2), so the two ratios are 6/11 and 4/11. -/
theorem c8_counterexample :
    calculateFieldSimilarity (some (Value.str "abecd")) (some (Value.str "cdabfe"))
      ≠ calculateFieldSimilarity (some (Value.str "cdabfe")) (some (Value.str "abecd")) := by
  have hm1 : matchTotal "abecd".data "cdabfe".data = 3 := by decide
  have hm2 : matchTotal "cdabfe".data "abecd".data = 2 := by decide
  have hn1 : normalizedStr (Value.str "abecd") = "abecd" := by decide
  have hn2 : normalizedStr (Value.str "cdabfe") = "cdabfe" := by decide
  have h1 : calculateFieldSimilarity (some (Value.str "abecd")) (some (Value.str "cdabfe"))
      = sequenceRatio "abecd".data "cdabfe".data := by
    simp only [calculateFieldSimilarity, hn1, hn2]
    rw [if_neg (by decide : ¬ ("abecd" : String) = "cdabfe")]
    rw [if_neg (by decide : ¬ (isNumeric "abecd" && isNumeric "cdabfe") = true)]
  have h2 : calculateFieldSimilarity (some (Value.str "cdabfe")) (some (Value.str "abecd"))
      = sequenceRatio "cdabfe".data "abecd".data := by
    simp only [calculateFieldSimilarity, hn1, hn2]
    rw [if_neg (by decide : ¬ ("cdabfe" : String) = "abecd")]
    rw [if_neg (by decide : ¬ (isNumeric "cdabfe" && isNumeric "abecd") = true)]
  have hl1 : ("abecd".data).length = 5 := by decide
  have hl2 : ("cdabfe".data).length = 6 := by decide
  have hr1 : sequenceRatio "abecd".data "cdabfe".data = 6 / 11 := by
    unfold sequenceRatio
    rw [hm1, hl1, hl2]
    norm_num
  have hr2 : sequenceRatio "cdabfe".data "abecd".data = 4 / 11 := by
    unfold sequenceRatio
    rw [hm2, hl1, hl2]
    norm_num
  rw [h1, h2, hr1, hr2]
  norm_num

/-- C8 (amended): the similarity score is symmetric on the numeric path —
whenever both normalized values look numeric and both parse as floats, the
similarity of the pair equals the similarity of the swapped pair — and the
`SequenceMatcher` string ratio returns 1 exactly for identical strings.
(Full symmetry fails: the ratio path is not symmetric, see the
counterexample.) -/
theorem c8_amended :
    (∀ v1 v2 : Value, ∀ a b : ℚ,
      isNumeric (normalizedStr v1) = true →
      isNumeric (normalizedStr v2) = true →
      parseFloatChars ((normalizedStr v1).data.filter (· ≠ ',')) = some a →
      parseFloatChars ((normalizedStr v2).data.filter (· ≠ ',')) = some b →
      calculateFieldSimilarity (some v1) (some v2)
        = calculateFieldSimilarity (some v2) (some v1)) ∧
    (∀ a b : List Char, sequenceRatio a b = 1 ↔ a = b) := by
  constructor
  · intro v1 v2 a b hn1 hn2 hp1 hp2
    by_cases hne : normalizedStr v1 = normalizedStr v2
    · simp only [calculateFieldSimilarity, hne]
    · have hne' : ¬ normalizedStr v2 = normalizedStr v1 := fun h => hne h.symm
      simp only [calculateFieldSimilarity]
      rw [if_neg hne, if_neg hne',
        if_pos (show (isNumeric (normalizedStr v1) && isNumeric (normalizedStr v2))
          = true by rw [hn1, hn2]; rfl),
        if_pos (show (isNumeric (normalizedStr v2) && isNumeric (normalizedStr v1))
          = true by rw [hn1, hn2]; rfl)]
      simp only [hp1, hp2]
      by_cases hab : a = b
      · rw [if_pos hab, if_pos hab.symm]
      · have hab' : ¬ b = a := fun h => hab h.symm
        rw [if_neg hab, if_neg hab']
        by_cases hz : a = 0 ∨ b = 0
        · rw [if_pos hz, if_pos hz.symm]
        · have hz' : ¬ (b = 0 ∨ a = 0) := fun h => hz h.symm
          rw [if_neg hz, if_neg hz']
          rw [abs_sub_comm a b, max_comm a b]
  · exact sequenceRatioOneIff

/-- C8 witness: numeric-path symmetry at `"100"` vs `"200"`, and the ratio
characterization at the concrete pair `"ab"` vs `"ab"`. -/
theorem c8_amended_witness :
    calculateFieldSimilarity (some (Value.str "100")) (some (Value.str "200"))
      = calculateFieldSimilarity (some (Value.str "200")) (some (Value.str "100")) ∧
    (sequenceRatio "ab".data "ab".data = 1 ↔ "ab".data = "ab".data) := by
  constructor
  · exact c8_amended.1 (Value.str "100") (Value.str "200") 100 200
      (by decide) (by decide)
      (by show parseFloatChars ((normalizedStr (Value.str "100")).data.filter (· ≠ ',')) = some 100
          have h : (normalizedStr (Value.str "100")).data.filter (· ≠ ',') = "100".data := by decide
          rw [h]; exact parseFloat100)
      (by show parseFloatChars ((normalizedStr (Value.str "200")).data.filter (· ≠ ',')) = some 200
          have h : (normalizedStr (Value.str "200")).data.filter (· ≠ ',') = "200".data := by decide
          rw [h]; exact parseFloat200)
  · exact c8_amended.2 "ab".data "ab".data

theorem dedupeFind : ∀ (l : List SelectorSuggestion) (seen : List String),
    ∀ s ∈ dedupeByKey seen l, suggestionKey s ∉ seen ∧
      l.find? (fun t => suggestionKey t == suggestionKey s) = some s := by
  intro l
  induction l with
  | nil => intro seen s hs; simp [dedupeByKey] at hs
  | cons x xs ih =>
    intro seen s hs
    simp only [dedupeByKey] at hs
    by_cases hx : suggestionKey x ∈ seen
    · rw [if_pos hx] at hs
      obtain ⟨hnot, hfind⟩ := ih seen s hs
      have hne : ¬ suggestionKey x = suggestionKey s := by
        intro he
        rw [he] at hx
        exact hnot hx
      refine ⟨hnot, ?_⟩
      rw [List.find?_cons_of_neg _ (by simp [hne])]
      exact hfind
    · rw [if_neg hx] at hs
      rcases List.mem_cons.1 hs with rfl | hs'
      · refine ⟨hx, ?_⟩
        rw [List.find?_cons_of_pos _ (by simp)]
      · obtain ⟨hnot, hfind⟩ := ih _ s hs'
        have hns : suggestionKey s ∉ seen := fun h => hnot (List.mem_cons_of_mem _ h)
        have hne : ¬ suggestionKey x = suggestionKey s := by
          intro he
          exact hnot (by rw [← he]; exact List.mem_cons_self _ _)
        refine ⟨hns, ?_⟩
        rw [List.find?_cons_of_neg _ (by simp [hne])]
        exact hfind

theorem dedupeNodupAux : ∀ (l : List SelectorSuggestion) (seen : List String),
    ((dedupeByKey seen l).map suggestionKey).Nodup ∧
      ∀ k ∈ (dedupeByKey seen l).map suggestionKey, k ∉ seen := by
  intro l
  induction l with
  | nil => intro seen; refine ⟨by simp [dedupeByKey], by simp [dedupeByKey]⟩
  | cons x xs ih =>
    intro seen
    simp only [dedupeByKey]
    by_cases hx : suggestionKey x ∈ seen
    · rw [if_pos hx]
      exact ih seen
    · rw [if_neg hx]
      obtain ⟨hnd, hmem⟩ := ih (suggestionKey x :: seen)
      constructor
      · simp only [List.map_cons, List.nodup_cons]
        refine ⟨fun hin => (hmem _ hin) (List.mem_cons_self _ _), hnd⟩
      · intro k hk
        simp only [List.map_cons, List.mem_cons] at hk
        rcases hk with rfl | hk
        · exact hx
        · exact fun hkseen => (hmem _ hk) (List.mem_cons_of_mem _ hkseen)

/-- C5 counterexample: two strategies produce the same `(selector, type)`
pair — pattern at 0.8 listed first, AI at 0.9 second.  The dedupe keeps the
FIRST entry, so the survivor carries confidence 0.8, not the higher 0.9
promised by the claim. -/
theorem c5_counterexample :
    suggestFieldSelectors [patternSug] [aiSug] [] = [patternSug] ∧
    patternSug.confidence = 4/5 ∧ aiSug.confidence = 9/10 ∧
    ¬ (4 / 5 : ℚ) = 9 / 10 :=
  ⟨rfl, rfl, rfl, by norm_num⟩

/-- C5 (amended): for every field, the pipeline's output has at most 3
entries, is sorted in descending confidence order, has pairwise-distinct
`(selector, selectorType)` keys, and every surviving entry is the FIRST
suggestion carrying its key in strategy order (pattern, then AI, then
keyword) — so on a key collision the earlier strategy's entry and confidence
survive, not necessarily the higher confidence. -/
theorem c5_amended (pat ai keyword : List SelectorSuggestion) :
    (suggestFieldSelectors pat ai keyword).length ≤ 3 ∧
    List.Pairwise rankDesc (suggestFieldSelectors pat ai keyword) ∧
    ((suggestFieldSelectors pat ai keyword).map suggestionKey).Nodup ∧
    ∀ s ∈ suggestFieldSelectors pat ai keyword,
      (pat ++ ai ++ keyword).find? (fun t => suggestionKey t == suggestionKey s)
        = some s := by
  refine ⟨?_, ?_, ?_, ?_⟩
  · rw [suggestFieldSelectors, List.length_take]
    exact min_le_left _ _
  · exact List.Pairwise.sublist (List.take_sublist _ _)
      (List.sorted_insertionSort rankDesc _)
  · have hnd := (dedupeNodupAux (pat ++ ai ++ keyword) []).1
    have hperm : (List.insertionSort rankDesc
          (dedupeByKey [] (pat ++ ai ++ keyword))).Perm
        (dedupeByKey [] (pat ++ ai ++ keyword)) :=
      List.perm_insertionSort rankDesc _
    have hnd2 := ((hperm.map suggestionKey).nodup_iff).2 hnd
    exact ((List.take_sublist 3 _).map suggestionKey).nodup hnd2
  · intro s hs
    have hs1 : s ∈ List.insertionSort rankDesc
        (dedupeByKey [] (pat ++ ai ++ keyword)) :=
      List.mem_of_mem_take hs
    have hs2 : s ∈ dedupeByKey [] (pat ++ ai ++ keyword) :=
      (List.perm_insertionSort rankDesc _).mem_iff.1 hs1
    exact (dedupeFind _ [] s hs2).2

/-- C5 witness: on the concrete collision inputs, the surviving entry for the
key `#vin-box:css` is the pattern suggestion — the first occurrence in
strategy order. -/
theorem c5_amended_witness :
    ([patternSug] ++ [aiSug] ++ ([] : List SelectorSuggestion)).find?
      (fun t => suggestionKey t == suggestionKey patternSug) = some patternSug :=
  (c5_amended [patternSug] [aiSug] []).2.2.2 patternSug
    (show patternSug ∈ [patternSug] from List.mem_singleton.mpr rfl)

theorem maxByCountMem : ∀ (rest l : List Nat) (p0 : Nat),
    maxByCount l p0 rest = p0 ∨ maxByCount l p0 rest ∈ rest := by
  intro rest
  induction rest with
  | nil => intro l p0; left; rfl
  | cons q qs ih =>
    intro l p0
    simp only [maxByCount]
    by_cases h : l.count p0 < l.count q
    · rw [if_pos h]
      rcases ih l q with h1 | h1
      · right; rw [h1]; exact List.mem_cons_self _ _
      · right; exact List.mem_cons_of_mem _ h1
    · rw [if_neg h]
      rcases ih l p0 with h1 | h1
      · left; exact h1
      · right; exact List.mem_cons_of_mem _ h1

theorem maxByCountGe : ∀ (rest l : List Nat) (p0 : Nat),
    l.count p0 ≤ l.count (maxByCount l p0 rest) ∧
      ∀ q ∈ rest, l.count q ≤ l.count (maxByCount l p0 rest) := by
  intro rest
  induction rest with
  | nil => intro l p0; exact ⟨le_rfl, by simp⟩
  | cons q qs ih =>
    intro l p0
    simp only [maxByCount]
    by_cases h : l.count p0 < l.count q
    · rw [if_pos h]
      obtain ⟨h1, h2⟩ := ih l q
      refine ⟨le_trans (le_of_lt h) h1, ?_⟩
      intro r hr
      rcases List.mem_cons.1 hr with rfl | hr'
      · exact h1
      · exact h2 r hr'
    · rw [if_neg h]
      obtain ⟨h1, h2⟩ := ih l p0
      refine ⟨h1, ?_⟩
      intro r hr
      rcases List.mem_cons.1 hr with rfl | hr'
      · exact le_trans (le_of_not_lt h) h1
      · exact h2 r hr'

/-- C9: whenever the heuristic price extractor returns a price, that price is
one of the accepted candidates, lies in the inclusive range 1000–200000, and
its number of occurrences among the candidates is maximal — the modal value
wins. -/
theorem c9_price_modal (groups : List (List Char)) (p : Nat)
    (h : extractPrice groups = some p) :
    p ∈ priceCandidates groups ∧ 1000 ≤ p ∧ p ≤ 200000 ∧
      ∀ q ∈ priceCandidates groups,
        (priceCandidates groups).count q ≤ (priceCandidates groups).count p := by
  unfold extractPrice at h
  split at h
  · exact absurd h (by simp)
  · rename_i p0 rest hc
    have hp : maxByCount (p0 :: rest) p0 rest = p := Option.some.inj h
    have hmem : p ∈ priceCandidates groups := by
      rw [hc]
      rcases maxByCountMem rest (p0 :: rest) p0 with h1 | h1
      · rw [← hp, h1]; exact List.mem_cons_self _ _
      · rw [← hp]; exact List.mem_cons_of_mem _ h1
    have hrange : (1000 ≤ p && p ≤ 200000) = true := by
      have hmem2 : p ∈ (groups.filterMap parseIntGroup).filter
          (fun p => 1000 ≤ p && p ≤ 200000) := hmem
      exact (List.mem_filter.1 hmem2).2
    refine ⟨hmem, ?_, ?_, ?_⟩
    · have := Bool.and_elim_left hrange
      exact of_decide_eq_true this
    · have := Bool.and_elim_right hrange
      exact of_decide_eq_true this
    · intro q hq
      obtain ⟨h1, h2⟩ := maxByCountGe rest (p0 :: rest) p0
      rw [hc] at hq ⊢
      rw [← hp]
      rcases List.mem_cons.1 hq with rfl | hq'
      · exact h1
      · exact h2 q hq'

/-- C9 witness: groups `"1500"`, `"2000"`, `"2000"` parse to in-range
candidates with 2000 modal; the extractor returns 2000 and the theorem's
conclusions hold there. -/
theorem c9_witness :
    extractPrice ["1500".data, "2000".data, "2000".data] = some 2000 ∧
    (2000 ∈ priceCandidates ["1500".data, "2000".data, "2000".data] ∧
      1000 ≤ 2000 ∧ 2000 ≤ 200000 ∧
      ∀ q ∈ priceCandidates ["1500".data, "2000".data, "2000".data],
        (priceCandidates ["1500".data, "2000".data, "2000".data]).count q ≤
          (priceCandidates ["1500".data, "2000".data, "2000".data]).count 2000) :=
  ⟨by decide, c9_price_modal ["1500".data, "2000".data, "2000".data] 2000 (by decide)⟩
